import Mathlib

/-!
# ClawFlows step-execution engine

A shallow embedding of `src/lib/run.mjs` (the step loop of `run`, `extractConfigDefaults`,
`evaluateCondition`, `interpolate`) and of `src/lib/check.mjs` (`scanCapabilities`,
`parseProvides`, `parseFrontmatterProvides`), with the properties of the engine stated and
proved over it.

Modelling decisions

* JavaScript values are the YAML/JSON values plus `undefined`; numbers are the integers
  that JavaScript prints in plain decimal notation.  Objects, the context and the capability
  index are finite maps of their own properties, in insertion order.
* `new Function(...Object.keys(context), code)(...Object.values(context))` and
  `JSON.stringify` belong to the JavaScript engine, not to this repository; they are the two
  fields of `Engine`.  A call reads the context and returns a value or the message of the
  exception it raised; it does not modify the values bound in the context.
* `run` is modelled from the parsed automation and the scanned capability index on (line 47);
  reading the file and `YAML.parse` come before.
* `console.log` / `console.error` narration and the file system (`saveLog`, reading
  `CAPABILITY.md` for the narration) are not part of the state; whether `saveLog` is called is
  kept as a flag of the result.
* `process.exit(1)` and an uncaught exception end `run` with a result of their own.
* The `for` loop is run with a budget of `steps.length` iterations; `run_returns` shows that
  the budget is never used up.
* `scanCapabilities` is modelled from the list of directories of `getSkillsDirs(options)` as
  the file system shows them: a directory is missing or unreadable, or lists its
  subdirectories; a subdirectory has each of its two files or not, and a file that exists can
  be read.  The regular expressions of the two parsers are modelled on lists of characters.
-/

namespace ClawFlows

/-! ## Values -/

/-- A JavaScript value as produced by `YAML.parse` or by an expression. -/
inductive Value where
  | undefined : Value
  | null : Value
  | bool (b : Bool) : Value
  | num (n : Int) : Value
  | str (s : String) : Value
  | arr (items : List Value) : Value
  | obj (fields : List (String × Value)) : Value

/-- JavaScript truthiness (`!!v`). -/
def Value.truthy : Value → Bool
  | .undefined => false
  | .null => false
  | .bool b => b
  | .num n => n != 0
  | .str s => s != ""
  | .arr _ => true
  | .obj _ => true

/-- The test `typeof v === 'object'`. -/
def Value.typeofObject : Value → Bool
  | .null => true
  | .arr _ => true
  | .obj _ => true
  | _ => false

mutual
/-- The conversion `String(v)`. -/
def Value.toJsString : Value → String
  | .undefined => "undefined"
  | .null => "null"
  | .bool true => "true"
  | .bool false => "false"
  | .num n => toString n
  | .str s => s
  | .arr items => joinItems items
  | .obj _ => "[object Object]"
/-- The call `items.join(',')`: `null` and `undefined` elements give the empty string. -/
def joinItems : List Value → String
  | [] => ""
  | .undefined :: [] => ""
  | .null :: [] => ""
  | v :: [] => v.toJsString
  | .undefined :: rest => "," ++ joinItems rest
  | .null :: rest => "," ++ joinItems rest
  | v :: rest => v.toJsString ++ "," ++ joinItems rest
end

/-- Truthiness of an optional string property such as `step.condition`: absent and `''` are
falsy. -/
def truthyStr : Option String → Bool
  | some s => s != ""
  | none => false

/-- The idiom `x || ''` on an optional string property. -/
def orEmpty : Option String → String
  | some s => s
  | none => ""

/-- The variable context of a run: property names with their values, in insertion order. -/
abbrev Context := List (String × Value)

/-- The assignment `context[key] = v`. -/
def Context.set : Context → String → Value → Context
  | [], key, v => [(key, v)]
  | (k, w) :: rest, key, v =>
    if k = key then (k, v) :: rest else (k, w) :: Context.set rest key v

/-- The property read `context[key]`. -/
def Context.get : Context → String → Option Value
  | [], _ => none
  | (k, w) :: rest, key => if k = key then some w else Context.get rest key

/-- The services of the JavaScript engine used by `run.mjs`. -/
structure Engine where
  /-- The call `new Function(...Object.keys(context), code)(...Object.values(context))`:
  the value returned, or the message of the exception raised. -/
  call : Context → String → Except String Value
  /-- The function `JSON.stringify` on values whose `typeof` is `'object'`. -/
  stringify : Value → String

/-! ## `interpolate` -/

/-- The string that `String.prototype.replace` inserts for the value returned by the replacer
of `interpolate`: `typeof result === 'object' ? JSON.stringify(result) : result`, converted to
a string. -/
def renderResult (E : Engine) (result : Value) : String :=
  if result.typeofObject then E.stringify result else result.toJsString

/-- The replacer callback of `interpolate`: `match` is `"$\x7b" ++ path ++ "\x7d"`. -/
def replacer (E : Engine) (context : Context) (path : List Char) : List Char :=
  match E.call context ("return " ++ String.mk path) with
  | .ok result => (renderResult E result).data
  | .error _ => '$' :: '{' :: (path ++ ['}'])

/-- A match of `/\$\{([^}]+)\}/` anchored at the head of the input: the captured group, when
the input starts with a dollar sign and an opening brace followed by at least one character
other than a closing brace and then a closing brace. -/
def matchPlaceholder : List Char → Option (List Char)
  | '$' :: '{' :: rest =>
    let path := rest.takeWhile (fun c => c != '}')
    if path != [] && (rest.dropWhile (fun c => c != '}')) != [] then some path else none
  | _ => none

/-- The global replace `template.replace(/\$\{([^}]+)\}/g, f)`: scan from the left; at a
position where the pattern matches, emit `f path` and resume after the match (`skip` counts
the characters of the match still to be passed over); elsewhere copy the character. -/
def replaceAll (f : List Char → List Char) : Nat → List Char → List Char
  | _, [] => []
  | skip + 1, _ :: cs => replaceAll f skip cs
  | 0, c :: cs =>
    match matchPlaceholder (c :: cs) with
    | some path => f path ++ replaceAll f (path.length + 2) cs
    | none => c :: replaceAll f 0 cs

/-- The string case of `interpolate`. -/
def interpolateString (E : Engine) (context : Context) (template : String) : String :=
  String.mk (replaceAll (replacer E context) 0 template.data)

mutual
/-- The function `interpolate(template, context)` of `run.mjs`. -/
def interpolate (E : Engine) (context : Context) : Value → Value
  | .str s => .str (interpolateString E context s)
  | .arr items => .arr (interpolateItems E context items)
  | .obj fields => .obj (interpolateFields E context fields)
  | v => v
/-- The `template.map(item => interpolate(item, context))` of `interpolate`. -/
def interpolateItems (E : Engine) (context : Context) : List Value → List Value
  | [] => []
  | item :: rest => interpolate E context item :: interpolateItems E context rest
/-- The loop over `Object.entries(template)` of `interpolate`. -/
def interpolateFields (E : Engine) (context : Context) :
    List (String × Value) → List (String × Value)
  | [] => []
  | (key, value) :: rest =>
    (key, interpolate E context value) :: interpolateFields E context rest
end

/-! ## Data model of a run -/

/-- A provider entry of the capability index: `{ skill, path }`. -/
structure Provider where
  skill : String
  path : String

/-- The capability index returned by `scanCapabilities`: capability names with their
provider, in insertion order. -/
abbrev CapabilityIndex := List (String × Provider)

/-- The lookup `capabilities[cap]`; `none` stands for a falsy result. -/
def CapabilityIndex.get : CapabilityIndex → String → Option Provider
  | [], _ => none
  | (k, p) :: rest, cap => if k = cap then some p else CapabilityIndex.get rest cap

/-- An entry of `automation.requires`: a capability name, or a structure carrying
`capability`. -/
inductive Requirement where
  | direct (cap : String) : Requirement
  | entry (capability : String) (metadata : List (String × Value)) : Requirement

/-- The expression `typeof req === 'string' ? req : req.capability`. -/
def Requirement.cap : Requirement → String
  | .direct cap => cap
  | .entry capability _ => capability

/-- A step of an automation, as decoded from YAML. -/
structure Step where
  name : Option String
  condition : Option String
  onFalse : Option String
  capability : Option String
  method : Option String
  args : Option Value
  capture : Option String
  action : Option String
  message : Option String
  template : Option String
  expression : Option String

/-- An automation, as decoded from YAML. -/
structure Automation where
  name : Option String
  description : Option String
  config : Option (List (String × Value))
  requires : Option (List Requirement)
  steps : Option (List Step)

/-- An entry of `runLog.steps`. -/
inductive StepRecord where
  /-- The record `{ name, skipped: true, reason }`. -/
  | skipped (name : String) (reason : String) : StepRecord
  /-- The record `{ name, capability, method, args, dryRun: true }`. -/
  | dryCall (name : String) (capability : String) (method : Option String) (args : Value) :
      StepRecord
  /-- The record `{ name, capability, method, args }`. -/
  | liveCall (name : String) (capability : String) (method : Option String) (args : Value) :
      StepRecord
  /-- The record `{ name, action: 'notify', message }`. -/
  | notify (name : String) (message : String) : StepRecord
  /-- The record `{ name, action: 'template', outputLength }`. -/
  | template (name : String) (outputLength : Nat) : StepRecord
  /-- The record `{ name, action: 'evaluate', result }`. -/
  | evaluated (name : String) (result : Value) : StepRecord
  /-- The record `{ name, action: 'evaluate', error }`. -/
  | evalError (name : String) (error : String) : StepRecord

/-- The `name` property of a record. -/
def StepRecord.name : StepRecord → String
  | .skipped n _ => n
  | .dryCall n _ _ _ => n
  | .liveCall n _ _ _ => n
  | .notify n _ => n
  | .template n _ => n
  | .evaluated n _ => n
  | .evalError n _ => n

/-- The object `runLog`. -/
structure RunLog where
  automation : String
  startedAt : String
  steps : List StepRecord
  dryRun : Bool
  completedAt : Option String

/-- The statement `runLog.steps.push(r)`. -/
def RunLog.push (log : RunLog) (r : StepRecord) : RunLog :=
  ⟨log.automation, log.startedAt, log.steps ++ [r], log.dryRun, log.completedAt⟩

/-- The mutable state of the step loop: the context and the log. -/
structure RunState where
  context : Context
  runLog : RunLog

/-- The state after `runLog.steps.push(r)`. -/
def RunState.push (σ : RunState) (r : StepRecord) : RunState :=
  ⟨σ.context, σ.runLog.push r⟩

/-- The state after `context[key] = v`. -/
def RunState.bind (σ : RunState) (key : String) (v : Value) : RunState :=
  ⟨σ.context.set key v, σ.runLog⟩

/-! ## Helpers of `run` -/

/-- The loop of `extractConfigDefaults`, from the entries still to be read and the `defaults`
built so far.  The test `'default' in value` raises a `TypeError` when `value` is `null`,
whose `typeof` is `'object'`; on an array the test is false, a decoded YAML sequence having no
property of that name. -/
def extractConfigDefaultsFrom (defaults : Context) :
    List (String × Value) → Except String Context
  | [] => .ok defaults
  | (key, value) :: rest =>
    match value with
    | .null => .error "Cannot use 'in' operator to search for 'default' in null"
    | .obj fields =>
      match Context.get fields "default" with
      | some d => extractConfigDefaultsFrom (defaults.set key d) rest
      | none => extractConfigDefaultsFrom (defaults.set key value) rest
    | _ => extractConfigDefaultsFrom (defaults.set key value) rest

/-- The function `extractConfigDefaults`. -/
def extractConfigDefaults (config : List (String × Value)) : Except String Context :=
  extractConfigDefaultsFrom [] config

/-- The function `evaluateCondition`, followed by the coercion of `!conditionMet`. -/
def evaluateCondition (E : Engine) (condition : String) (context : Context) : Bool :=
  match E.call context ("return " ++ condition) with
  | .ok v => v.truthy
  | .error _ => false

/-- The expression `step.name || ("step-" + (i + 1))`. -/
def stepName (step : Step) (i : Nat) : String :=
  if truthyStr step.name then orEmpty step.name else "step-" ++ toString (i + 1)

/-- The call `steps.findIndex(s => s.name === targetStep)`; `none` stands for `-1`. -/
def findIndex (targetStep : String) : List Step → Option Nat
  | [] => none
  | s :: rest =>
    if s.name = some targetStep then some 0
    else match findIndex targetStep rest with
      | some j => some (j + 1)
      | none => none

/-- The white space class `\s` of JavaScript regular expressions. -/
def isJsSpace (c : Char) : Bool :=
  c.toNat ∈ [9, 10, 11, 12, 13, 32, 160, 5760, 8232, 8233, 8239, 8287, 12288, 65279]
    || (8192 ≤ c.toNat && c.toNat ≤ 8202)

/-- The test `/^\s*(const|let|var)\s/.test(expression)`. -/
def startsWithDeclaration (expression : String) : Bool :=
  let rest := expression.data.dropWhile isJsSpace
  [("const").data, ("let").data, ("var").data].any fun kw =>
    kw.isPrefixOf rest && (match rest.drop kw.length with
      | c :: _ => isJsSpace c
      | [] => false)

/-- The source text `code` built by the `evaluate` action. -/
def evaluateCode (expression : String) : String :=
  if expression.data.contains (Char.ofNat 10) || startsWithDeclaration expression then
    "return (function() \x7b " ++ expression ++ " \x7d)()"
  else
    "return " ++ expression

/-- The `length` of a JavaScript string: its number of UTF-16 code units. -/
def utf16Length (s : String) : Nat :=
  (s.data.map fun c => if c.toNat < 65536 then 1 else 2).sum

/-! ## The step loop -/

/-- How one iteration of the `for` loop of `run` ends. -/
inductive StepOutcome where
  /-- The iteration ends (by `continue` or by reaching the end of the body) and the loop goes
  on with index `i`, the increment included. -/
  | next (i : Nat) (σ : RunState) : StepOutcome
  /-- The statement `break`. -/
  | stop (σ : RunState) : StepOutcome
  /-- The call `process.exit(1)` for the capability `cap`, in state `σ`. -/
  | exit (cap : String) (σ : RunState) : StepOutcome

/-- The target of `step.onFalse` when `step.onFalse?.startsWith('skip-to:')`, that is
`step.onFalse.slice(8)`. -/
def skipTarget : Option String → Option String
  | some s =>
    if ("skip-to:").data.isPrefixOf s.data then some (String.mk (s.data.drop 8)) else none
  | none => none

/-- The branch `if (!conditionMet)` of the loop body, lines 82 to 104. -/
def conditionNotMet (steps : List Step) (i : Nat) (step : Step) (σ : RunState) : StepOutcome :=
  if step.onFalse = some "exit" then
    .stop (σ.push (.skipped (stepName step i) "condition not met, exit"))
  else
    match skipTarget step.onFalse with
    | some targetStep =>
      match findIndex targetStep steps with
      | some targetIndex =>
        if targetIndex > i then
          .next (targetIndex - 1 + 1)
            (σ.push (.skipped (stepName step i) ("skip-to " ++ targetStep)))
        else
          .next (i + 1) (σ.push (.skipped (stepName step i) "condition not met"))
      | none => .next (i + 1) (σ.push (.skipped (stepName step i) "condition not met"))
    | none => .next (i + 1) (σ.push (.skipped (stepName step i) "condition not met"))

/-- The expression `step.args || {}`. -/
def argsOrEmpty : Option Value → Value
  | some a => if a.truthy then a else .obj []
  | none => .obj []

/-- The text of a template literal hole for `step.method`. -/
def methodText : Option String → String
  | some m => m
  | none => "undefined"

/-- The block `if (step.capability)` of the loop body, lines 108 to 155: the state after it,
or the capability for which `process.exit(1)` is called. -/
def capabilityBody (E : Engine) (capabilities : CapabilityIndex) (dryRun : Bool)
    (i : Nat) (step : Step) (σ : RunState) : Except String RunState :=
  if truthyStr step.capability then
    match capabilities.get (orEmpty step.capability) with
    | none => .error (orEmpty step.capability)
    | some _ =>
      let args := interpolate E σ.context (argsOrEmpty step.args)
      if dryRun then
        .ok (σ.push (.dryCall (stepName step i) (orEmpty step.capability) step.method args))
      else
        let σ1 :=
          if truthyStr step.capture then
            σ.bind (orEmpty step.capture)
              (.obj [("_placeholder", .str ("Result of " ++ orEmpty step.capability ++ "."
                ++ methodText step.method))])
          else σ
        .ok (σ1.push (.liveCall (stepName step i) (orEmpty step.capability) step.method args))
  else .ok σ

/-- The block `if (step.action)` of the loop body, lines 158 to 208. -/
def actionBody (E : Engine) (i : Nat) (step : Step) (σ : RunState) : RunState :=
  if step.action = some "notify" then
    σ.push (.notify (stepName step i) (interpolateString E σ.context (orEmpty step.message)))
  else if step.action = some "template" then
    let result := interpolateString E σ.context (orEmpty step.template)
    let σ1 := if truthyStr step.capture then σ.bind (orEmpty step.capture) (.str result) else σ
    σ1.push (.template (stepName step i) (utf16Length result))
  else if step.action = some "evaluate" then
    match E.call σ.context (evaluateCode (orEmpty step.expression)) with
    | .ok result =>
      let σ1 := if truthyStr step.capture then σ.bind (orEmpty step.capture) result else σ
      σ1.push (.evaluated (stepName step i) result)
    | .error message => σ.push (.evalError (stepName step i) message)
  else σ

/-- One iteration of the `for` loop of `run`, lines 73 to 210, on `step = steps[i]`. -/
def execStep (E : Engine) (capabilities : CapabilityIndex) (dryRun : Bool) (steps : List Step)
    (i : Nat) (step : Step) (σ : RunState) : StepOutcome :=
  if truthyStr step.condition
      && !(evaluateCondition E (orEmpty step.condition) σ.context) then
    conditionNotMet steps i step σ
  else
    match capabilityBody E capabilities dryRun i step σ with
    | .error cap => .exit cap σ
    | .ok σ1 => .next (i + 1) (actionBody E i step σ1)

/-- How the `for` loop of `run` ends. -/
inductive LoopResult where
  /-- The loop is left, by its guard or by `break`. -/
  | finished (σ : RunState) : LoopResult
  /-- The process exits at a step whose capability has no provider. -/
  | exit (cap : String) (σ : RunState) : LoopResult
  /-- The iteration budget of the model is used up. -/
  | outOfFuel : LoopResult

/-- The `for (let i = ...; i < steps.length; i++)` loop of `run`, from index `i` in state
`σ`, for at most `fuel` iterations. -/
def runLoop (E : Engine) (capabilities : CapabilityIndex) (dryRun : Bool) (steps : List Step) :
    Nat → Nat → RunState → LoopResult
  | fuel, i, σ =>
    match steps[i]? with
    | none => .finished σ
    | some step =>
      match fuel with
      | 0 => .outOfFuel
      | fuel + 1 =>
        match execStep E capabilities dryRun steps i step σ with
        | .next j σ1 => runLoop E capabilities dryRun steps fuel j σ1
        | .stop σ1 => .finished σ1
        | .exit cap σ1 => .exit cap σ1

/-- The options and the surroundings of one call of `run`: the `dry-run` flag, the name given
on the command line, and the two readings of the clock. -/
structure Options where
  dryRun : Bool
  cliName : String
  startedAt : String
  completedAt : String

/-- How `run` ends, from the parsed automation on. -/
inductive RunResult where
  /-- The exit `process.exit(1)` of the requirement check, line 54. -/
  | missingCapability (cap : String) : RunResult
  /-- An exception that `run` does not catch. -/
  | threw (message : String) : RunResult
  /-- The exit `process.exit(1)` at a step, line 113, with the state reached. -/
  | noProvider (cap : String) (σ : RunState) : RunResult
  /-- Normal termination: the finalized log, the final context, and whether `saveLog` is
  called. -/
  | completed (runLog : RunLog) (context : Context) (saved : Bool) : RunResult
  /-- The iteration budget of the model is used up. -/
  | outOfFuel : RunResult

/-- The first requirement without a provider, lines 48 to 56. -/
def firstMissing (capabilities : CapabilityIndex) : List Requirement → Option String
  | [] => none
  | req :: rest =>
    match capabilities.get req.cap with
    | none => some req.cap
    | some _ => firstMissing capabilities rest

/-- The initial state of the step loop, lines 59 to 69. -/
def initialState (opts : Options) (automation : Automation) (config : Context) : RunState :=
  ⟨[("config", .obj config)],
   ⟨if truthyStr automation.name then orEmpty automation.name else opts.cliName,
    opts.startedAt, [], opts.dryRun, none⟩⟩

/-- The function `run`, from the parsed `automation` and the scanned `capabilities` on
(lines 47 to 220). -/
def run (E : Engine) (capabilities : CapabilityIndex) (opts : Options)
    (automation : Automation) : RunResult :=
  match firstMissing capabilities (automation.requires.getD []) with
  | some cap => .missingCapability cap
  | none =>
    match extractConfigDefaults (automation.config.getD []) with
    | .error message => .threw message
    | .ok config =>
      let steps := automation.steps.getD []
      match runLoop E capabilities opts.dryRun steps steps.length 0
          (initialState opts automation config) with
      | .finished σ =>
        .completed ⟨σ.runLog.automation, σ.runLog.startedAt, σ.runLog.steps, σ.runLog.dryRun,
          some opts.completedAt⟩ σ.context (!opts.dryRun)
      | .exit cap σ => .noProvider cap σ
      | .outOfFuel => .outOfFuel

/-- The iterations performed by the `for` loop of `run`, from index `i` in state `σ`: the
index of each step visited, with the state in which its iteration starts. -/
def visits (E : Engine) (capabilities : CapabilityIndex) (dryRun : Bool) (steps : List Step) :
    Nat → Nat → RunState → List (Nat × RunState)
  | fuel, i, σ =>
    match steps[i]? with
    | none => []
    | some step =>
      match fuel with
      | 0 => []
      | fuel + 1 =>
        (i, σ) :: match execStep E capabilities dryRun steps i step σ with
          | .next j σ1 => visits E capabilities dryRun steps fuel j σ1
          | .stop _ => []
          | .exit _ _ => []

/-- The steps visited by `run`, in order, each with the state in which its iteration
starts. -/
def runVisits (E : Engine) (capabilities : CapabilityIndex) (opts : Options)
    (automation : Automation) : List (Nat × RunState) :=
  match firstMissing capabilities (automation.requires.getD []) with
  | some _ => []
  | none =>
    match extractConfigDefaults (automation.config.getD []) with
    | .error _ => []
    | .ok config =>
      let steps := automation.steps.getD []
      visits E capabilities opts.dryRun steps steps.length 0 (initialState opts automation config)

/-- The step loop from index `i`, with the budget `steps.length - i`. -/
def loopFrom (E : Engine) (capabilities : CapabilityIndex) (dryRun : Bool) (steps : List Step)
    (i : Nat) (σ : RunState) : LoopResult :=
  runLoop E capabilities dryRun steps (steps.length - i) i σ

/-- The iterations of the step loop from index `i`, with the budget `steps.length - i`. -/
def visitsFrom (E : Engine) (capabilities : CapabilityIndex) (dryRun : Bool)
    (steps : List Step) (i : Nat) (σ : RunState) : List (Nat × RunState) :=
  visits E capabilities dryRun steps (steps.length - i) i σ

/-- The log of a completed run. -/
def RunResult.trace : RunResult → Option RunLog
  | .completed runLog _ _ => some runLog
  | _ => none

/-- The records of the log of a completed run. -/
def RunResult.records (r : RunResult) : Option (List StepRecord) :=
  r.trace.map fun log => log.steps

/-- A sample of the JavaScript engine, for evaluating `run` on concrete automations.  On the
function bodies `return true`, `return false`, `return 40+2` and `return x` it returns what
JavaScript returns (for `return x`: the binding of `x`, or a `ReferenceError` when the context
has none).  On any other body it fails with a fixed message; it is applied to such a body
only where the body does not parse in JavaScript either. -/
def sampleCall (context : Context) (code : String) : Except String Value :=
  if code = "return true" then .ok (.bool true)
  else if code = "return false" then .ok (.bool false)
  else if code = "return 40+2" then .ok (.num 42)
  else if code = "return x" then
    match context.get "x" with
    | some v => .ok v
    | none => .error "x is not defined"
  else .error "Unexpected token"

/-- The sample engine: `sampleCall`, and `JSON.stringify` on `null`. -/
def sampleEngine : Engine :=
  ⟨sampleCall, fun _ => "null"⟩

/-- Sample options: a live run. -/
def liveOptions : Options :=
  ⟨false, "demo", "2024-01-01T00:00:00.000Z", "2024-01-01T00:00:01.000Z"⟩

/-- Sample options: a dry run. -/
def dryOptions : Options :=
  ⟨true, "demo", "2024-01-01T00:00:00.000Z", "2024-01-01T00:00:01.000Z"⟩

/-- The automation with the given steps and nothing else. -/
def automationOf (steps : List Step) : Automation :=
  ⟨none, none, none, none, some steps⟩

/-- A step `{ name, action: 'notify', message }`. -/
def notifyStep (name message : String) : Step :=
  ⟨some name, none, none, none, none, none, none, some "notify", some message, none, none⟩

/-- A step `{ name, condition, onFalse }` without a body. -/
def guardStep (name condition onFalse : String) : Step :=
  ⟨some name, some condition, some onFalse, none, none, none, none, none, none, none, none⟩

/-- The result of `run` once the requirement check and the config resolution have passed. -/
def finish (opts : Options) : LoopResult → RunResult
  | .finished σ =>
    .completed ⟨σ.runLog.automation, σ.runLog.startedAt, σ.runLog.steps, σ.runLog.dryRun,
      some opts.completedAt⟩ σ.context (!opts.dryRun)
  | .exit cap σ => .noProvider cap σ
  | .outOfFuel => .outOfFuel

/-- The step `step` with `onFalse` removed. -/
def Step.withoutOnFalse (step : Step) : Step :=
  ⟨step.name, step.condition, none, step.capability, step.method, step.args, step.capture,
    step.action, step.message, step.template, step.expression⟩

/-- The automation `automation` with the `onFalse` of step `i` removed. -/
def Automation.withoutOnFalse (automation : Automation) (i : Nat) : Automation :=
  ⟨automation.name, automation.description, automation.config, automation.requires,
    automation.steps.map fun steps => steps.modify Step.withoutOnFalse i⟩

/-- The condition of the step passes: there is none, or it evaluates to a truthy value. -/
def conditionPasses (E : Engine) (step : Step) (σ : RunState) : Prop :=
  truthyStr step.condition = true →
    evaluateCondition E (orEmpty step.condition) σ.context = true

/-- The step names a capability that has no provider in the index. -/
def unprovided (capabilities : CapabilityIndex) (step : Step) : Prop :=
  truthyStr step.capability = true ∧ capabilities.get (orEmpty step.capability) = none

/-- Whether `run` ended without completing: by `process.exit(1)` or by an exception. -/
def RunResult.fatal : RunResult → Bool
  | .completed _ _ _ => false
  | _ => true

/-- The state in which an iteration ends. -/
def StepOutcome.state : StepOutcome → RunState
  | .next _ σ => σ
  | .stop σ => σ
  | .exit _ σ => σ

/-- The characters contain an occurrence of a placeholder: a dollar sign and an opening
brace, then one or more characters other than a closing brace, then a closing brace. -/
def HasPlaceholder (cs : List Char) : Prop :=
  ∃ pre path post, cs = pre ++ '$' :: '{' :: (path ++ '}' :: post)
    ∧ path ≠ [] ∧ ∀ c ∈ path, c ≠ '}'

/-- Whether the pattern of `interpolate` matches at some position of the characters. -/
def containsPlaceholder : List Char → Bool
  | [] => false
  | c :: cs => (matchPlaceholder (c :: cs)).isSome || containsPlaceholder cs

/-- The line terminators of JavaScript regular expressions: what `.` does not match and what
delimits lines for `^` and `$` under the `m` flag. -/
def isLineTerminator (c : Char) : Bool :=
  c.toNat = 10 || c.toNat = 13 || c.toNat = 8232 || c.toNat = 8233

/-- The rest of the characters after the prefix `pre`, when they start with it. -/
def dropPrefix (pre cs : List Char) : Option (List Char) :=
  if pre.isPrefixOf cs then some (cs.drop pre.length) else none

/-- The call `s.trim()`. -/
def trim (cs : List Char) : List Char :=
  ((cs.dropWhile isJsSpace).reverse.dropWhile isJsSpace).reverse

/-- The call `s.split(sep)` for a separator of one character. -/
def splitAt (sep : Char) : List Char → List (List Char)
  | [] => [[]]
  | c :: cs =>
    if c = sep then [] :: splitAt sep cs
    else match splitAt sep cs with
      | first :: rest => (c :: first) :: rest
      | [] => [[c]]

/-- The group of `\s*(.+)$` under the `m` flag, anchored after `Provides:`.  The greedy `\s*`
takes the white space, line breaks included; `.+` then takes the rest of the line reached.
When only white space is left up to the end of the input, `\s*` gives back characters until
`.+` can take one that is not a line terminator: the last such character. -/
def providesGroup (rest : List Char) : Option (List Char) :=
  match rest.dropWhile isJsSpace with
  | c :: cs => some ((c :: cs).takeWhile fun d => !isLineTerminator d)
  | [] => (rest.reverse.find? fun d => !isLineTerminator d).map fun d => [d]

/-- The first match of `/^Provides:\s*(.+)$/m`, from a position of the content on: its group.
`atLineStart` tells whether the position is the start of the input or follows a line
terminator. -/
def findProvides : Bool → List Char → Option (List Char)
  | _, [] => none
  | atLineStart, c :: cs =>
    match (if atLineStart then
        (dropPrefix ("Provides:").data (c :: cs)).bind providesGroup else none) with
    | some group => some group
    | none => findProvides (isLineTerminator c) cs

/-- The function `parseProvides`. -/
def parseProvides (content : String) : List String :=
  match findProvides true content.data with
  | some group => (splitAt ',' group).map fun s => String.mk (trim s)
  | none => []

/-- The text before the first occurrence of `pat` in the characters. -/
def beforeFirst (pat : List Char) : List Char → Option (List Char)
  | [] => if pat.isPrefixOf [] then some [] else none
  | c :: cs =>
    if pat.isPrefixOf (c :: cs) then some []
    else (beforeFirst pat cs).map fun t => c :: t

/-- One item `\s+-[^\n]+\n?` at the head of the characters: the text matched and the rest.
The white space before the dash is the whole run of white space, which must not be empty; the
text after the dash runs to the end of the line and must not be empty; the line feed is taken
when there is one. -/
def matchItem (cs : List Char) : Option (List Char × List Char) :=
  match cs.dropWhile isJsSpace with
  | '-' :: rest =>
    if cs.takeWhile isJsSpace != [] && rest.takeWhile (fun d => d != Char.ofNat 10) != [] then
      match rest.dropWhile (fun d => d != Char.ofNat 10) with
      | nl :: rest1 =>
        some (cs.takeWhile isJsSpace
          ++ '-' :: (rest.takeWhile (fun d => d != Char.ofNat 10) ++ [nl]), rest1)
      | [] =>
        some (cs.takeWhile isJsSpace ++ '-' :: rest.takeWhile (fun d => d != Char.ofNat 10), [])
    else none
  | _ => none

/-- The text matched by `(?:\s+-[^\n]+\n?)*` at the head of the characters, for at most `fuel`
items. -/
def matchItems : Nat → List Char → List Char
  | 0, _ => []
  | fuel + 1, cs =>
    match matchItem cs with
    | some (item, rest) => item ++ matchItems fuel rest
    | none => []

/-- A match of `provides:\s*\n((?:\s+-[^\n]+\n?)*)` at the head of the characters: its group.
The greedy `\s*` stops before the last line feed of the white space that follows
`provides:`, which must hold one. -/
def matchProvidesBlock (cs : List Char) : Option (List Char) :=
  match dropPrefix ("provides:").data cs with
  | none => none
  | some rest =>
    if (rest.takeWhile isJsSpace).contains (Char.ofNat 10) then
      some (matchItems rest.length
        (((rest.takeWhile isJsSpace).reverse.takeWhile fun d => d != Char.ofNat 10).reverse
          ++ rest.dropWhile isJsSpace))
    else none

/-- The first match of `/provides:\s*\n((?:\s+-[^\n]+\n?)*)/` in the characters: its group. -/
def findProvidesBlock : List Char → Option (List Char)
  | [] => none
  | c :: cs =>
    match matchProvidesBlock (c :: cs) with
    | some group => some group
    | none => findProvidesBlock cs

/-- A match of `capability:\s*(\S+)` at the head of the characters: its group. -/
def matchCapability (cs : List Char) : Option (List Char) :=
  match dropPrefix ("capability:").data cs with
  | none => none
  | some rest =>
    if ((rest.dropWhile isJsSpace).takeWhile fun d => !isJsSpace d) != [] then
      some ((rest.dropWhile isJsSpace).takeWhile fun d => !isJsSpace d)
    else none

/-- The first match of `/capability:\s*(\S+)/` in a line: its group. -/
def findCapability : List Char → Option (List Char)
  | [] => none
  | c :: cs =>
    match matchCapability (c :: cs) with
    | some name => some name
    | none => findCapability cs

/-- The function `parseFrontmatterProvides`: the front matter is the text between a leading
`---` line and the first line feed followed by `---`. -/
def parseFrontmatterProvides (content : String) : List String :=
  match dropPrefix ['-', '-', '-', Char.ofNat 10] content.data with
  | none => []
  | some rest =>
    match beforeFirst [Char.ofNat 10, '-', '-', '-'] rest with
    | none => []
    | some frontmatter =>
      match findProvidesBlock frontmatter with
      | none => []
      | some group =>
        (splitAt (Char.ofNat 10) group).filterMap fun line =>
          (findCapability line).map String.mk

/-- A provider directory as `scanCapabilities` reads it: its name, and the content of its
`CAPABILITY.md` and of its `SKILL.md` when the file exists (a file that exists can be
read). -/
structure Skill where
  name : String
  capabilityMd : Option String
  skillMd : Option String

/-- An entry of `getSkillsDirs(options)` as `scanCapabilities` reads it: its path and the
subdirectories that `readdirSync` lists, in the order listed; `none` when the directory does
not exist or cannot be read. -/
structure SkillsDir where
  path : String
  skills : Option (List Skill)

/-- The statement `if (!capabilities[cap]) capabilities[cap] = provider`. -/
def CapabilityIndex.add (capabilities : CapabilityIndex) (cap : String) (provider : Provider) :
    CapabilityIndex :=
  match capabilities.get cap with
  | some _ => capabilities
  | none => capabilities ++ [(cap, provider)]

/-- The loop `for (const cap of provides)` of `scanCapabilities`. -/
def addProvides (capabilities : CapabilityIndex) (provider : Provider) :
    List String → CapabilityIndex
  | [] => capabilities
  | cap :: rest => addProvides (capabilities.add cap provider) provider rest

/-- The body of the loop over the skills of a directory, lines 71 to 96: `CAPABILITY.md`
first, then the front matter of `SKILL.md`. -/
def scanSkill (capabilities : CapabilityIndex) (skillsDir : String) (skill : Skill) :
    CapabilityIndex :=
  let afterManifest :=
    match skill.capabilityMd with
    | some content => addProvides capabilities ⟨skill.name, skillsDir⟩ (parseProvides content)
    | none => capabilities
  match skill.skillMd with
  | some content =>
    addProvides afterManifest ⟨skill.name, skillsDir⟩ (parseFrontmatterProvides content)
  | none => afterManifest

/-- The loop `for (const skill of skills)` of `scanCapabilities`. -/
def scanSkills (capabilities : CapabilityIndex) (skillsDir : String) :
    List Skill → CapabilityIndex
  | [] => capabilities
  | skill :: rest => scanSkills (scanSkill capabilities skillsDir skill) skillsDir rest

/-- The loop `for (const skillsDir of skillsDirs)` of `scanCapabilities`: a directory that
does not exist or cannot be read is skipped. -/
def scanDirs (capabilities : CapabilityIndex) : List SkillsDir → CapabilityIndex
  | [] => capabilities
  | dir :: rest =>
    match dir.skills with
    | none => scanDirs capabilities rest
    | some skills => scanDirs (scanSkills capabilities dir.path skills) rest

/-- The function `scanCapabilities`, from the directories of `getSkillsDirs(options)` as the
file system shows them. -/
def scanCapabilities (skillsDirs : List SkillsDir) : CapabilityIndex :=
  scanDirs [] skillsDirs

/-- A sample manifest: a heading, then the line `Provides: mail, calendar`. -/
def sampleManifest : String :=
  "# Mailer\nProvides: mail, calendar\n"

/-- A sample descriptor whose front matter declares `calendar` and `search`. -/
def sampleDescriptor : String :=
  "---\nname: planner\nprovides:\n  - capability: calendar\n  - capability: search\n---\n# Planner\n"

/-- A sample of provider directories: the second directory is missing. -/
def sampleSkillsDirs : List SkillsDir :=
  [⟨"/work/skills", some [⟨"mailer", some sampleManifest, none⟩,
      ⟨"planner", none, some sampleDescriptor⟩]⟩,
   ⟨"/data/skills", none⟩,
   ⟨"/app/skills", some [⟨"finder", some "Provides: search", none⟩]⟩]

/-- A step `{ action: 'notify', message }` without a name. -/
def unnamedNotifyStep (message : String) : Step :=
  ⟨none, none, none, none, none, none, none, some "notify", some message, none, none⟩

/-- The value that a config entry resolves to: its `default` field when the entry is a
structure carrying one, the entry itself otherwise. -/
def resolveEntry : Value → Value
  | .obj fields =>
    match Context.get fields "default" with
    | some d => d
    | none => .obj fields
  | v => v

/-- The records that an iteration has appended, from the state before it and the state
after it. -/
def appended (σ σ1 : RunState) : List StepRecord :=
  σ1.runLog.steps.drop σ.runLog.steps.length

/-- The records appended by the `for` loop of `run`, from index `i` in state `σ`, each with
the index of the step whose iteration appended it. -/
def attributed (E : Engine) (capabilities : CapabilityIndex) (dryRun : Bool)
    (steps : List Step) : Nat → Nat → RunState → List (Nat × StepRecord)
  | fuel, i, σ =>
    match steps[i]? with
    | none => []
    | some step =>
      match fuel with
      | 0 => []
      | fuel + 1 =>
        (appended σ (execStep E capabilities dryRun steps i step σ).state).map
            (fun r => (i, r))
          ++ match execStep E capabilities dryRun steps i step σ with
            | .next j σ1 => attributed E capabilities dryRun steps fuel j σ1
            | .stop _ => []
            | .exit _ _ => []

/-- The records appended by `run`, each with the index of the step whose iteration appended
it. -/
def runAttributed (E : Engine) (capabilities : CapabilityIndex) (opts : Options)
    (automation : Automation) : List (Nat × StepRecord) :=
  match firstMissing capabilities (automation.requires.getD []) with
  | some _ => []
  | none =>
    match extractConfigDefaults (automation.config.getD []) with
    | .error _ => []
    | .ok config =>
      let steps := automation.steps.getD []
      attributed E capabilities opts.dryRun steps steps.length 0
        (initialState opts automation config)

/-! ## The loop: progress and budget -/

section Loop

variable (E : Engine) (capabilities : CapabilityIndex) (dryRun : Bool) (steps : List Step)

theorem conditionNotMet_next_lt {i j : Nat} {step : Step} {σ σ1 : RunState}
    (h : conditionNotMet steps i step σ = .next j σ1) : i < j := by
  unfold conditionNotMet at h
  split at h
  · cases h
  · split at h
    · split at h
      · split at h
        · cases h; omega
        · cases h; omega
      · cases h; omega
    · cases h; omega

theorem execStep_next_lt {i j : Nat} {step : Step} {σ σ1 : RunState}
    (h : execStep E capabilities dryRun steps i step σ = .next j σ1) : i < j := by
  unfold execStep at h
  split at h
  · exact conditionNotMet_next_lt steps h
  · split at h
    · cases h
    · cases h; omega

theorem runLoop_none {i : Nat} (h : steps[i]? = none) (fuel : Nat) (σ : RunState) :
    runLoop E capabilities dryRun steps fuel i σ = .finished σ := by
  unfold runLoop
  simp [h]

theorem runLoop_some {i : Nat} {step : Step} (h : steps[i]? = some step) (fuel : Nat)
    (σ : RunState) :
    runLoop E capabilities dryRun steps (fuel + 1) i σ
      = match execStep E capabilities dryRun steps i step σ with
        | .next j σ1 => runLoop E capabilities dryRun steps fuel j σ1
        | .stop σ1 => .finished σ1
        | .exit cap σ1 => .exit cap σ1 := by
  rw [runLoop]
  simp [h]

theorem visits_none {i : Nat} (h : steps[i]? = none) (fuel : Nat) (σ : RunState) :
    visits E capabilities dryRun steps fuel i σ = [] := by
  unfold visits
  simp [h]

theorem visits_some {i : Nat} {step : Step} (h : steps[i]? = some step) (fuel : Nat)
    (σ : RunState) :
    visits E capabilities dryRun steps (fuel + 1) i σ
      = (i, σ) :: match execStep E capabilities dryRun steps i step σ with
        | .next j σ1 => visits E capabilities dryRun steps fuel j σ1
        | .stop _ => []
        | .exit _ _ => [] := by
  rw [visits]
  simp [h]

theorem runLoop_fuel (fuel fuel1 : Nat) : ∀ (i : Nat) (σ : RunState),
    steps.length - i ≤ fuel → steps.length - i ≤ fuel1 →
    runLoop E capabilities dryRun steps fuel i σ
      = runLoop E capabilities dryRun steps fuel1 i σ := by
  induction fuel generalizing fuel1 with
  | zero =>
    intro i σ h0 _
    have hnone : steps[i]? = none := List.getElem?_eq_none (by omega)
    rw [runLoop_none E capabilities dryRun steps hnone, runLoop_none E capabilities dryRun steps hnone]
  | succ n ih =>
    intro i σ h0 h1
    cases hget : steps[i]? with
    | none =>
      rw [runLoop_none E capabilities dryRun steps hget, runLoop_none E capabilities dryRun steps hget]
    | some step =>
      have hi : i < steps.length := by
        by_contra hc
        have : steps[i]? = none := List.getElem?_eq_none (by omega)
        rw [this] at hget
        cases hget
      cases fuel1 with
      | zero => omega
      | succ m =>
        rw [runLoop_some E capabilities dryRun steps hget, runLoop_some E capabilities dryRun steps hget]
        cases hex : execStep E capabilities dryRun steps i step σ with
        | next j σ1 =>
          have hlt := execStep_next_lt E capabilities dryRun steps hex
          exact ih m j σ1 (by omega) (by omega)
        | stop σ1 => rfl
        | exit cap σ1 => rfl

theorem visits_fuel (fuel fuel1 : Nat) : ∀ (i : Nat) (σ : RunState),
    steps.length - i ≤ fuel → steps.length - i ≤ fuel1 →
    visits E capabilities dryRun steps fuel i σ
      = visits E capabilities dryRun steps fuel1 i σ := by
  induction fuel generalizing fuel1 with
  | zero =>
    intro i σ h0 _
    have hnone : steps[i]? = none := List.getElem?_eq_none (by omega)
    rw [visits_none E capabilities dryRun steps hnone, visits_none E capabilities dryRun steps hnone]
  | succ n ih =>
    intro i σ h0 h1
    cases hget : steps[i]? with
    | none =>
      rw [visits_none E capabilities dryRun steps hget, visits_none E capabilities dryRun steps hget]
    | some step =>
      have hi : i < steps.length := by
        by_contra hc
        have : steps[i]? = none := List.getElem?_eq_none (by omega)
        rw [this] at hget
        cases hget
      cases fuel1 with
      | zero => omega
      | succ m =>
        rw [visits_some E capabilities dryRun steps hget, visits_some E capabilities dryRun steps hget]
        cases hex : execStep E capabilities dryRun steps i step σ with
        | next j σ1 =>
          have hlt := execStep_next_lt E capabilities dryRun steps hex
          simp only
          rw [ih m j σ1 (by omega) (by omega)]
        | stop σ1 => rfl
        | exit cap σ1 => rfl

/-- The loop from a position past the end stops at once. -/
theorem loopFrom_none {i : Nat} (h : steps[i]? = none) (σ : RunState) :
    loopFrom E capabilities dryRun steps i σ = .finished σ :=
  runLoop_none E capabilities dryRun steps h _ σ

/-- One unfolding of the loop at a step. -/
theorem loopFrom_some {i : Nat} {step : Step} (h : steps[i]? = some step) (σ : RunState) :
    loopFrom E capabilities dryRun steps i σ
      = match execStep E capabilities dryRun steps i step σ with
        | .next j σ1 => loopFrom E capabilities dryRun steps j σ1
        | .stop σ1 => .finished σ1
        | .exit cap σ1 => .exit cap σ1 := by
  have hi : i < steps.length := by
    by_contra hc
    have : steps[i]? = none := List.getElem?_eq_none (by omega)
    rw [this] at h
    cases h
  unfold loopFrom
  obtain ⟨m, hm⟩ : ∃ m, steps.length - i = m + 1 := ⟨steps.length - i - 1, by omega⟩
  rw [hm, runLoop_some E capabilities dryRun steps h]
  cases hex : execStep E capabilities dryRun steps i step σ with
  | next j σ1 =>
    have hlt := execStep_next_lt E capabilities dryRun steps hex
    exact runLoop_fuel E capabilities dryRun steps _ _ j σ1 (by omega) (by omega)
  | stop σ1 => rfl
  | exit cap σ1 => rfl

theorem visitsFrom_none {i : Nat} (h : steps[i]? = none) (σ : RunState) :
    visitsFrom E capabilities dryRun steps i σ = [] :=
  visits_none E capabilities dryRun steps h _ σ

theorem visitsFrom_some {i : Nat} {step : Step} (h : steps[i]? = some step) (σ : RunState) :
    visitsFrom E capabilities dryRun steps i σ
      = (i, σ) :: match execStep E capabilities dryRun steps i step σ with
        | .next j σ1 => visitsFrom E capabilities dryRun steps j σ1
        | .stop _ => []
        | .exit _ _ => [] := by
  have hi : i < steps.length := by
    by_contra hc
    have : steps[i]? = none := List.getElem?_eq_none (by omega)
    rw [this] at h
    cases h
  unfold visitsFrom
  obtain ⟨m, hm⟩ : ∃ m, steps.length - i = m + 1 := ⟨steps.length - i - 1, by omega⟩
  rw [hm, visits_some E capabilities dryRun steps h]
  cases hex : execStep E capabilities dryRun steps i step σ with
  | next j σ1 =>
    have hlt := execStep_next_lt E capabilities dryRun steps hex
    simp only
    rw [visits_fuel E capabilities dryRun steps m (steps.length - j) j σ1 (by omega) (by omega)]
  | stop σ1 => rfl
  | exit cap σ1 => rfl

/-- The step loop never uses up its budget: `run` always returns. -/
theorem loopFrom_ne_outOfFuel : ∀ (n i : Nat) (σ : RunState), steps.length - i ≤ n →
    loopFrom E capabilities dryRun steps i σ ≠ .outOfFuel := by
  intro n
  induction n with
  | zero =>
    intro i σ h
    rw [loopFrom_none E capabilities dryRun steps (List.getElem?_eq_none (by omega))]
    intro hc
    cases hc
  | succ n ih =>
    intro i σ h
    cases hget : steps[i]? with
    | none =>
      rw [loopFrom_none E capabilities dryRun steps hget]
      intro hc
      cases hc
    | some step =>
      have hi : i < steps.length := by
        by_contra hc
        have : steps[i]? = none := List.getElem?_eq_none (by omega)
        rw [this] at hget
        cases hget
      rw [loopFrom_some E capabilities dryRun steps hget]
      cases hex : execStep E capabilities dryRun steps i step σ with
      | next j σ1 =>
        have hlt := execStep_next_lt E capabilities dryRun steps hex
        exact ih j σ1 (by omega)
      | stop σ1 => intro hc; cases hc
      | exit cap σ1 => intro hc; cases hc

theorem getElem?_some_lt {i : Nat} {step : Step} (h : steps[i]? = some step) :
    i < steps.length := by
  by_contra hc
  have : steps[i]? = none := List.getElem?_eq_none (by omega)
  rw [this] at h
  cases h

/-- Every step visited from index `i` on has an index from `i` up to the last one. -/
theorem visitsFrom_mem_bounds : ∀ (n i : Nat) (σ : RunState), steps.length - i ≤ n →
    ∀ p ∈ visitsFrom E capabilities dryRun steps i σ, i ≤ p.1 ∧ p.1 < steps.length := by
  intro n
  induction n with
  | zero =>
    intro i σ h p hp
    rw [visitsFrom_none E capabilities dryRun steps (List.getElem?_eq_none (by omega))] at hp
    cases hp
  | succ n ih =>
    intro i σ h p hp
    cases hget : steps[i]? with
    | none =>
      rw [visitsFrom_none E capabilities dryRun steps hget] at hp
      cases hp
    | some step =>
      have hi := getElem?_some_lt steps hget
      rw [visitsFrom_some E capabilities dryRun steps hget] at hp
      rcases List.mem_cons.mp hp with rfl | hp
      · exact ⟨Nat.le_refl _, hi⟩
      · cases hex : execStep E capabilities dryRun steps i step σ with
        | next j σ1 =>
          have hlt := execStep_next_lt E capabilities dryRun steps hex
          rw [hex] at hp
          have := ih j σ1 (by omega) p hp
          omega
        | stop σ1 => rw [hex] at hp; cases hp
        | exit cap σ1 => rw [hex] at hp; cases hp

/-- A visited step splits the loop: what comes before it has smaller indices, and from it on
the loop is the loop started at that step in the state reached. -/
theorem visitsFrom_split : ∀ (n i : Nat) (σ : RunState), steps.length - i ≤ n →
    ∀ (k : Nat) (τ : RunState), (k, τ) ∈ visitsFrom E capabilities dryRun steps i σ →
    ∃ pre, visitsFrom E capabilities dryRun steps i σ
        = pre ++ visitsFrom E capabilities dryRun steps k τ
      ∧ (∀ p ∈ pre, p.1 < k)
      ∧ loopFrom E capabilities dryRun steps i σ = loopFrom E capabilities dryRun steps k τ := by
  intro n
  induction n with
  | zero =>
    intro i σ h k τ hp
    rw [visitsFrom_none E capabilities dryRun steps (List.getElem?_eq_none (by omega))] at hp
    cases hp
  | succ n ih =>
    intro i σ h k τ hp
    cases hget : steps[i]? with
    | none =>
      rw [visitsFrom_none E capabilities dryRun steps hget] at hp
      cases hp
    | some step =>
      have hi := getElem?_some_lt steps hget
      have hv := visitsFrom_some E capabilities dryRun steps hget σ
      have hl := loopFrom_some E capabilities dryRun steps hget σ
      rw [hv] at hp
      rcases List.mem_cons.mp hp with heq | hp
      · cases heq
        refine ⟨[], ?_, ?_, rfl⟩
        · rfl
        · intro p hp
          cases hp
      · cases hex : execStep E capabilities dryRun steps i step σ with
        | next j σ1 =>
          have hlt := execStep_next_lt E capabilities dryRun steps hex
          rw [hex] at hp hv hl
          simp only at hp hv hl
          obtain ⟨pre, h1, h2, h3⟩ := ih j σ1 (by omega) k τ hp
          have hjk := (visitsFrom_mem_bounds E capabilities dryRun steps _ j σ1
            (Nat.le_refl _) (k, τ) hp).1
          refine ⟨(i, σ) :: pre, ?_, ?_, ?_⟩
          · rw [hv, h1]; rfl
          · intro p hp
            rcases List.mem_cons.mp hp with rfl | hp
            · show i < k
              have : j ≤ k := hjk
              omega
            · exact h2 p hp
          · rw [hl, h3]
        | stop σ1 => rw [hex] at hp; cases hp
        | exit cap σ1 => rw [hex] at hp; cases hp

end Loop

theorem firstMissing_eq_none (capabilities : CapabilityIndex) (reqs : List Requirement)
    (h : ∀ req ∈ reqs, capabilities.get req.cap ≠ none) :
    firstMissing capabilities reqs = none := by
  induction reqs with
  | nil => rfl
  | cons req rest ih =>
    unfold firstMissing
    cases hget : capabilities.get req.cap with
    | none => exact absurd hget (h req (List.mem_cons_self _ _))
    | some p => exact ih (fun r hr => h r (List.mem_cons_of_mem _ hr))

theorem firstMissing_eq_some (capabilities : CapabilityIndex) (reqs : List Requirement)
    (req : Requirement) (hmem : req ∈ reqs) (h : capabilities.get req.cap = none) :
    ∃ cap, firstMissing capabilities reqs = some cap ∧ capabilities.get cap = none
      ∧ ∃ r ∈ reqs, r.cap = cap := by
  induction reqs with
  | nil => cases hmem
  | cons r rest ih =>
    unfold firstMissing
    cases hget : capabilities.get r.cap with
    | none => exact ⟨r.cap, rfl, hget, r, List.mem_cons_self _ _, rfl⟩
    | some p =>
      rcases List.mem_cons.mp hmem with rfl | hm
      · rw [h] at hget; cases hget
      · obtain ⟨cap, h1, h2, r1, h3, h4⟩ := ih hm
        exact ⟨cap, h1, h2, r1, List.mem_cons_of_mem _ h3, h4⟩

/-! ## `run` in terms of the loop -/

theorem run_of_ok (E : Engine) (capabilities : CapabilityIndex) (opts : Options)
    (automation : Automation) (config : Context)
    (hreq : firstMissing capabilities (automation.requires.getD []) = none)
    (hcfg : extractConfigDefaults (automation.config.getD []) = .ok config) :
    run E capabilities opts automation
      = finish opts (loopFrom E capabilities opts.dryRun (automation.steps.getD []) 0
          (initialState opts automation config)) := by
  unfold run
  simp only [hreq, hcfg]
  unfold loopFrom finish
  simp only [Nat.sub_zero]

theorem runVisits_of_ok (E : Engine) (capabilities : CapabilityIndex) (opts : Options)
    (automation : Automation) (config : Context)
    (hreq : firstMissing capabilities (automation.requires.getD []) = none)
    (hcfg : extractConfigDefaults (automation.config.getD []) = .ok config) :
    runVisits E capabilities opts automation
      = visitsFrom E capabilities opts.dryRun (automation.steps.getD []) 0
          (initialState opts automation config) := by
  unfold runVisits
  simp only [hreq, hcfg]
  unfold visitsFrom
  simp only [Nat.sub_zero]

/-- A step visited by `run` is visited after the requirement check and the config resolution
have passed. -/
theorem runVisits_mem_ok (E : Engine) (capabilities : CapabilityIndex) (opts : Options)
    (automation : Automation) (p : Nat × RunState)
    (h : p ∈ runVisits E capabilities opts automation) :
    firstMissing capabilities (automation.requires.getD []) = none
      ∧ ∃ config, extractConfigDefaults (automation.config.getD []) = .ok config := by
  unfold runVisits at h
  cases hreq : firstMissing capabilities (automation.requires.getD []) with
  | some cap => rw [hreq] at h; cases h
  | none =>
    cases hcfg : extractConfigDefaults (automation.config.getD []) with
    | error e => rw [hreq, hcfg] at h; cases h
    | ok config => exact ⟨rfl, config, rfl⟩

/-- At a step visited by `run`: the visits before it have smaller indices, and the rest of
the run is the loop started at that step in the state reached. -/
theorem run_at_visit (E : Engine) (capabilities : CapabilityIndex) (opts : Options)
    (automation : Automation) (k : Nat) (τ : RunState)
    (h : (k, τ) ∈ runVisits E capabilities opts automation) :
    ∃ pre, runVisits E capabilities opts automation
        = pre ++ visitsFrom E capabilities opts.dryRun (automation.steps.getD []) k τ
      ∧ (∀ p ∈ pre, p.1 < k)
      ∧ run E capabilities opts automation
        = finish opts (loopFrom E capabilities opts.dryRun (automation.steps.getD []) k τ) := by
  obtain ⟨hreq, config, hcfg⟩ := runVisits_mem_ok E capabilities opts automation _ h
  rw [runVisits_of_ok E capabilities opts automation config hreq hcfg] at h ⊢
  obtain ⟨pre, h1, h2, h3⟩ :=
    visitsFrom_split E capabilities opts.dryRun (automation.steps.getD []) _ 0 _
      (Nat.le_refl _) k τ h
  refine ⟨pre, h1, h2, ?_⟩
  rw [run_of_ok E capabilities opts automation config hreq hcfg, h3]

/-- The function `run` always returns: the budget of the loop is never used up. -/
theorem run_returns (E : Engine) (capabilities : CapabilityIndex) (opts : Options)
    (automation : Automation) : run E capabilities opts automation ≠ .outOfFuel := by
  cases hreq : firstMissing capabilities (automation.requires.getD []) with
  | some cap =>
    unfold run
    rw [hreq]
    intro hc
    cases hc
  | none =>
    cases hcfg : extractConfigDefaults (automation.config.getD []) with
    | error e =>
      unfold run
      rw [hreq, hcfg]
      intro hc
      cases hc
    | ok config =>
      rw [run_of_ok E capabilities opts automation config hreq hcfg]
      have hne := loopFrom_ne_outOfFuel E capabilities opts.dryRun (automation.steps.getD [])
        _ 0 (initialState opts automation config) (Nat.le_refl _)
      cases hloop : loopFrom E capabilities opts.dryRun (automation.steps.getD []) 0
          (initialState opts automation config) with
      | finished σ => intro hc; cases hc
      | exit cap σ => intro hc; cases hc
      | outOfFuel => exact absurd hloop hne

/-! ## Conditions that are not met -/

theorem skipTarget_exit : skipTarget (some "exit") = none := rfl

/-- The target of `"skip-to:" + t` is `t`. -/
theorem skipTarget_skipTo (t : String) : skipTarget (some ("skip-to:" ++ t)) = some t := by
  have hd : ("skip-to:" ++ t).data
      = 's' :: 'k' :: 'i' :: 'p' :: '-' :: 't' :: 'o' :: ':' :: t.data := by
    rw [String.data_append]
    rfl
  unfold skipTarget
  simp only [hd]
  simp [List.isPrefixOf]

theorem execStep_conditionNotMet (E : Engine) (capabilities : CapabilityIndex) (dryRun : Bool)
    (steps : List Step) (i : Nat) (step : Step) (σ : RunState)
    (hcond : truthyStr step.condition = true)
    (hfalse : evaluateCondition E (orEmpty step.condition) σ.context = false) :
    execStep E capabilities dryRun steps i step σ = conditionNotMet steps i step σ := by
  unfold execStep
  simp [hcond, hfalse]

theorem conditionNotMet_default (steps : List Step) (i : Nat) (step : Step) (σ : RunState)
    (hne : step.onFalse ≠ some "exit")
    (hno : ∀ t j, skipTarget step.onFalse = some t → findIndex t steps = some j → j ≤ i) :
    conditionNotMet steps i step σ
      = .next (i + 1) (σ.push (.skipped (stepName step i) "condition not met")) := by
  unfold conditionNotMet
  simp only [hne, if_false]
  cases ht : skipTarget step.onFalse with
  | none => rfl
  | some t =>
    cases hj : findIndex t steps with
    | none => simp only [hj]
    | some j =>
      have := hno t j ht hj
      have hgt : ¬ j > i := by omega
      simp only [hj, hgt, if_false]

/-- The first step named `t` carries that name, and no earlier step does. -/
theorem findIndex_spec (t : String) : ∀ (steps : List Step) (j : Nat),
    findIndex t steps = some j →
    (∃ step, steps[j]? = some step ∧ step.name = some t)
      ∧ ∀ (k : Nat) (step : Step), k < j → steps[k]? = some step → step.name ≠ some t := by
  intro steps
  induction steps with
  | nil => intro j h; cases h
  | cons s rest ih =>
    intro j h
    unfold findIndex at h
    by_cases hs : s.name = some t
    · simp only [hs, if_true] at h
      cases h
      refine ⟨⟨s, by simp, hs⟩, ?_⟩
      intro k step hk
      omega
    · simp only [hs, if_false] at h
      cases hr : findIndex t rest with
      | none => rw [hr] at h; cases h
      | some j1 =>
        rw [hr] at h
        cases h
        obtain ⟨⟨step, h1, h2⟩, h3⟩ := ih j1 hr
        refine ⟨⟨step, by simpa using h1, h2⟩, ?_⟩
        intro k st hk hst
        cases k with
        | zero =>
          simp only [List.getElem?_cons_zero] at hst
          cases hst
          exact hs
        | succ m =>
          simp only [List.getElem?_cons_succ] at hst
          exact h3 m st (by omega) hst

/-! ## Steps without a condition -/

section Unconditional

variable (E : Engine) (capabilities : CapabilityIndex) (dryRun : Bool) (steps : List Step)

end Unconditional

/-! ## C1 -/

section SkipToFallback

variable (E : Engine) (capabilities : CapabilityIndex) (dryRun : Bool)

theorem findIndex_modify (t : String) (i : Nat) : ∀ (steps : List Step),
    findIndex t (steps.modify Step.withoutOnFalse i) = findIndex t steps := by
  induction i with
  | zero =>
    intro steps
    cases steps with
    | nil => rfl
    | cons s rest => rfl
  | succ n ih =>
    intro steps
    cases steps with
    | nil => rfl
    | cons s rest =>
      show findIndex t (s :: rest.modify Step.withoutOnFalse n) = findIndex t (s :: rest)
      unfold findIndex
      rw [ih rest]

theorem conditionNotMet_modify (steps : List Step) (i k : Nat) (step : Step) (σ : RunState) :
    conditionNotMet (steps.modify Step.withoutOnFalse i) k step σ
      = conditionNotMet steps k step σ := by
  unfold conditionNotMet
  split
  · rfl
  · split
    · rw [findIndex_modify]
    · rfl

theorem execStep_modify (steps : List Step) (i k : Nat) (step : Step) (σ : RunState) :
    execStep E capabilities dryRun (steps.modify Step.withoutOnFalse i) k step σ
      = execStep E capabilities dryRun steps k step σ := by
  unfold execStep
  rw [conditionNotMet_modify]

/-- Removing an `onFalse` that is a `skip-to` whose target is missing, or not after the step,
does not change the iteration of the step. -/
theorem execStep_withoutOnFalse (steps : List Step) (i : Nat) (step : Step) (σ : RunState)
    (t : String) (htarget : skipTarget step.onFalse = some t)
    (hno : ∀ j, findIndex t steps = some j → j ≤ i) :
    execStep E capabilities dryRun steps i step.withoutOnFalse σ
      = execStep E capabilities dryRun steps i step σ := by
  have hne : step.onFalse ≠ some "exit" := by
    intro hc
    rw [hc, skipTarget_exit] at htarget
    cases htarget
  have h1 : conditionNotMet steps i step σ
      = .next (i + 1) (σ.push (.skipped (stepName step i) "condition not met")) := by
    apply conditionNotMet_default steps i step σ hne
    intro t1 j ht1 hj
    rw [htarget] at ht1
    cases ht1
    exact hno j hj
  have h2 : conditionNotMet steps i step.withoutOnFalse σ
      = .next (i + 1) (σ.push (.skipped (stepName step i) "condition not met")) := rfl
  unfold execStep
  rw [h1, h2]
  rfl

theorem loopFrom_withoutOnFalse (steps : List Step) (i : Nat) (step : Step) (t : String)
    (hstep : steps[i]? = some step) (htarget : skipTarget step.onFalse = some t)
    (hno : ∀ j, findIndex t steps = some j → j ≤ i) :
    ∀ (n k : Nat) (σ : RunState), steps.length - k ≤ n →
      loopFrom E capabilities dryRun (steps.modify Step.withoutOnFalse i) k σ
        = loopFrom E capabilities dryRun steps k σ := by
  intro n
  induction n with
  | zero =>
    intro k σ h
    rw [loopFrom_none E capabilities dryRun steps (List.getElem?_eq_none (by omega)),
      loopFrom_none E capabilities dryRun _
        (List.getElem?_eq_none (by rw [List.length_modify]; omega))]
  | succ n ih =>
    intro k σ h
    cases hget : steps[k]? with
    | none =>
      have hk : steps.length ≤ k := by
        by_contra hc
        have := List.getElem?_eq_getElem (l := steps) (n := k) (by omega)
        rw [hget] at this; cases this
      rw [loopFrom_none E capabilities dryRun steps hget,
        loopFrom_none E capabilities dryRun _
          (List.getElem?_eq_none (by rw [List.length_modify]; omega))]
    | some s =>
      have hk := getElem?_some_lt steps hget
      have hget1 : (steps.modify Step.withoutOnFalse i)[k]?
          = some (if i = k then s.withoutOnFalse else s) := by
        rw [List.getElem?_modify, hget]
        by_cases hik : i = k <;> simp [hik]
      rw [loopFrom_some E capabilities dryRun steps hget,
        loopFrom_some E capabilities dryRun _ hget1, execStep_modify]
      have hsame : execStep E capabilities dryRun steps k
            (if i = k then s.withoutOnFalse else s) σ
          = execStep E capabilities dryRun steps k s σ := by
        by_cases hik : i = k
        · subst hik
          rw [hstep] at hget
          cases hget
          simp only [if_true]
          exact execStep_withoutOnFalse E capabilities dryRun steps i step σ t htarget hno
        · simp only [hik, if_false]
      rw [hsame]
      cases hex : execStep E capabilities dryRun steps k s σ with
      | next j σ1 =>
        have hlt := execStep_next_lt E capabilities dryRun steps hex
        exact ih j σ1 (by omega)
      | stop σ1 => rfl
      | exit cap σ1 => rfl

end SkipToFallback

/-- C4: when the `onFalse` of step `i` is `skip-to:<t>` and no step is named `t`, or the first
step named `t` has index at most `i` (whatever later steps are named), the run is the run of
the same automation with the `onFalse` of step `i` removed: same result, hence same trace and
same final context; and whenever the condition of step `i` is not met, its iteration appends
the single record `{ name, skipped: true, reason: "condition not met" }` and goes on at
`i + 1`. -/
theorem run_skip_to_unmatched_eq_no_onFalse (E : Engine) (capabilities : CapabilityIndex)
    (opts : Options) (automation : Automation) (i : Nat) (step : Step) (t : String)
    (hstep : (automation.steps.getD [])[i]? = some step)
    (honFalse : step.onFalse = some ("skip-to:" ++ t))
    (hno : ∀ j, findIndex t (automation.steps.getD []) = some j → j ≤ i) :
    run E capabilities opts automation = run E capabilities opts (automation.withoutOnFalse i)
      ∧ ∀ σ : RunState,
          evaluateCondition E (orEmpty step.condition) σ.context = false →
          truthyStr step.condition = true →
          execStep E capabilities opts.dryRun (automation.steps.getD []) i step σ
            = .next (i + 1) (σ.push (.skipped (stepName step i) "condition not met")) := by
  have htarget : skipTarget step.onFalse = some t := by
    rw [honFalse]
    exact skipTarget_skipTo t
  constructor
  · have hsteps : (automation.withoutOnFalse i).steps.getD []
        = (automation.steps.getD []).modify Step.withoutOnFalse i := by
      unfold Automation.withoutOnFalse
      cases automation.steps with
      | none => simp
      | some steps => rfl
    cases hreq : firstMissing capabilities (automation.requires.getD []) with
    | some cap =>
      unfold run
      have : (automation.withoutOnFalse i).requires = automation.requires := rfl
      rw [this, hreq]
    | none =>
      cases hcfg : extractConfigDefaults (automation.config.getD []) with
      | error e =>
        unfold run
        have h1 : (automation.withoutOnFalse i).requires = automation.requires := rfl
        have h2 : (automation.withoutOnFalse i).config = automation.config := rfl
        rw [h1, h2, hreq, hcfg]
      | ok config =>
        rw [run_of_ok E capabilities opts automation config hreq hcfg,
          run_of_ok E capabilities opts (automation.withoutOnFalse i) config hreq hcfg, hsteps,
          loopFrom_withoutOnFalse E capabilities opts.dryRun _ i step t hstep htarget hno _ 0 _
            (Nat.le_refl _)]
        rfl
  · intro σ hfalse hcond
    have hne : step.onFalse ≠ some "exit" := by
      intro hc
      rw [hc, skipTarget_exit] at htarget
      cases htarget
    rw [execStep_conditionNotMet E capabilities opts.dryRun _ i step σ hcond hfalse]
    apply conditionNotMet_default _ i step σ hne
    intro t1 j ht1 hj
    rw [htarget] at ht1
    cases ht1
    exact hno j hj

/-- C4, witness: step 1 names step 0 as its target, and a later step has the same name. -/
theorem run_skip_to_unmatched_eq_no_onFalse_witness :
    run sampleEngine [] liveOptions
        (automationOf [notifyStep "a" "hi", guardStep "b" "false" "skip-to:a",
          notifyStep "a" "again"])
      = run sampleEngine [] liveOptions
        ((automationOf [notifyStep "a" "hi", guardStep "b" "false" "skip-to:a",
          notifyStep "a" "again"]).withoutOnFalse 1)
      ∧ ∀ σ : RunState,
          evaluateCondition sampleEngine
            (orEmpty (guardStep "b" "false" "skip-to:a").condition) σ.context = false →
          truthyStr (guardStep "b" "false" "skip-to:a").condition = true →
          execStep sampleEngine [] liveOptions.dryRun
              ((automationOf [notifyStep "a" "hi", guardStep "b" "false" "skip-to:a",
                notifyStep "a" "again"]).steps.getD []) 1
              (guardStep "b" "false" "skip-to:a") σ
            = .next (1 + 1)
              (σ.push (.skipped (stepName (guardStep "b" "false" "skip-to:a") 1)
                "condition not met")) :=
  run_skip_to_unmatched_eq_no_onFalse sampleEngine [] liveOptions
    (automationOf [notifyStep "a" "hi", guardStep "b" "false" "skip-to:a",
      notifyStep "a" "again"]) 1 (guardStep "b" "false" "skip-to:a") "a" rfl rfl
    (by
      intro j hj
      have h0 : findIndex "a" ((automationOf [notifyStep "a" "hi",
          guardStep "b" "false" "skip-to:a", notifyStep "a" "again"]).steps.getD [])
          = some 0 := rfl
      rw [h0] at hj
      cases hj
      exact Nat.zero_le _)

/-! ## Placeholders -/

theorem matchPlaceholder_closed (path rest : List Char) (hne : path ≠ [])
    (hb : ∀ c ∈ path, c ≠ '}') :
    matchPlaceholder ('$' :: '{' :: (path ++ '}' :: rest)) = some path := by
  have hp : ∀ c ∈ path, (fun c : Char => c != '}') c = true := by
    intro c hc
    simpa using hb c hc
  unfold matchPlaceholder
  simp only [List.takeWhile_append_of_pos hp, List.dropWhile_append_of_pos hp]
  simp [hne]

section Fatal

variable (E : Engine) (capabilities : CapabilityIndex) (dryRun : Bool) (steps : List Step)

theorem conditionNotMet_ne_exit (i : Nat) (step : Step) (σ σ1 : RunState) (cap : String) :
    conditionNotMet steps i step σ ≠ .exit cap σ1 := by
  unfold conditionNotMet
  intro h
  split at h
  · cases h
  · split at h
    · split at h
      · split at h
        · cases h
        · cases h
      · cases h
    · cases h

/-- An iteration exits the process exactly when the condition of the step passes and the
step names a capability without a provider; nothing has been appended then. -/
theorem execStep_exit_iff (i : Nat) (step : Step) (σ σ1 : RunState) (cap : String) :
    execStep E capabilities dryRun steps i step σ = .exit cap σ1
      ↔ conditionPasses E step σ ∧ unprovided capabilities step
        ∧ cap = orEmpty step.capability ∧ σ1 = σ := by
  unfold conditionPasses unprovided
  constructor
  · intro h
    unfold execStep at h
    split at h
    · exact absurd h (conditionNotMet_ne_exit steps i step σ σ1 cap)
    · rename_i hguard
      have hpass : truthyStr step.condition = true →
          evaluateCondition E (orEmpty step.condition) σ.context = true := by
        intro hc
        cases hev : evaluateCondition E (orEmpty step.condition) σ.context with
        | true => rfl
        | false => simp [hc, hev] at hguard
      split at h
      · rename_i cap1 hcb
        cases h
        unfold capabilityBody at hcb
        split at hcb
        · rename_i hcap
          split at hcb
          · rename_i hget
            cases hcb
            exact ⟨hpass, ⟨hcap, hget⟩, rfl, rfl⟩
          · split at hcb <;> cases hcb
        · cases hcb
      · cases h
  · rintro ⟨hpass, ⟨hcap, hget⟩, rfl, rfl⟩
    have hguard : (truthyStr step.condition
        && !(evaluateCondition E (orEmpty step.condition) σ1.context)) = false := by
      cases hc : truthyStr step.condition with
      | false => rfl
      | true => simp [hpass hc]
    unfold execStep capabilityBody
    simp [hguard, hcap, hget]

/-- The loop exits the process exactly when it visits a step whose condition passes and
whose capability has no provider; the state is the one in which that step was visited, and
it is the last step visited. -/
theorem loopFrom_exit_iff : ∀ (n i : Nat) (σ σ1 : RunState) (cap : String),
    steps.length - i ≤ n →
    (loopFrom E capabilities dryRun steps i σ = .exit cap σ1
      ↔ ∃ k step, (k, σ1) ∈ visitsFrom E capabilities dryRun steps i σ
          ∧ steps[k]? = some step ∧ conditionPasses E step σ1
          ∧ unprovided capabilities step ∧ cap = orEmpty step.capability) := by
  intro n
  induction n with
  | zero =>
    intro i σ σ1 cap h
    have hnone : steps[i]? = none := List.getElem?_eq_none (by omega)
    rw [loopFrom_none E capabilities dryRun steps hnone,
      visitsFrom_none E capabilities dryRun steps hnone]
    constructor
    · intro hc; cases hc
    · rintro ⟨k, step, hmem, _⟩; cases hmem
  | succ n ih =>
    intro i σ σ1 cap h
    cases hget : steps[i]? with
    | none =>
      rw [loopFrom_none E capabilities dryRun steps hget,
        visitsFrom_none E capabilities dryRun steps hget]
      constructor
      · intro hc; cases hc
      · rintro ⟨k, step, hmem, _⟩; cases hmem
    | some s =>
      have hi := getElem?_some_lt steps hget
      rw [loopFrom_some E capabilities dryRun steps hget,
        visitsFrom_some E capabilities dryRun steps hget]
      cases hex : execStep E capabilities dryRun steps i s σ with
      | next j σ2 =>
        have hlt := execStep_next_lt E capabilities dryRun steps hex
        simp only
        rw [ih j σ2 σ1 cap (by omega)]
        constructor
        · rintro ⟨k, step, hmem, hrest⟩
          exact ⟨k, step, List.mem_cons_of_mem _ hmem, hrest⟩
        · rintro ⟨k, step, hmem, hk, hp, hu, hc⟩
          rcases List.mem_cons.mp hmem with heq | hmem
          · cases heq
            rw [hget] at hk
            cases hk
            have := (execStep_exit_iff E capabilities dryRun steps i s σ σ cap).mpr
              ⟨hp, hu, hc, rfl⟩
            rw [hex] at this
            cases this
          · exact ⟨k, step, hmem, hk, hp, hu, hc⟩
      | stop σ2 =>
        simp only
        constructor
        · intro hc; cases hc
        · rintro ⟨k, step, hmem, hk, hp, hu, hc⟩
          simp only [List.mem_singleton] at hmem
          cases hmem
          rw [hget] at hk
          cases hk
          have := (execStep_exit_iff E capabilities dryRun steps i s σ σ cap).mpr
            ⟨hp, hu, hc, rfl⟩
          rw [hex] at this
          cases this
      | exit cap2 σ2 =>
        simp only
        have hx := (execStep_exit_iff E capabilities dryRun steps i s σ σ2 cap2).mp hex
        obtain ⟨hp, hu, hc, hσ⟩ := hx
        constructor
        · intro h1
          cases h1
          subst hσ
          exact ⟨i, s, List.mem_singleton.mpr rfl, hget, hp, hu, hc⟩
        · rintro ⟨k, step, hmem, hk, _, _, hc2⟩
          simp only [List.mem_singleton] at hmem
          cases hmem
          rw [hget] at hk
          cases hk
          rw [hc, hc2, hσ]

end Fatal

/-- C8, the code at the failing input: an automation with no requirement and no step whose
config has an entry without a value (`null`) does not complete: `extractConfigDefaults`
raises a `TypeError`, which `run` does not catch. -/
theorem run_null_config_entry_throws :
    run sampleEngine [] liveOptions ⟨some "demo", none, some [("apiKey", .null)], none, none⟩
      = .threw "Cannot use 'in' operator to search for 'default' in null"
    ∧ (run sampleEngine [] liveOptions
        ⟨some "demo", none, some [("apiKey", .null)], none, none⟩).fatal = true
    ∧ (Automation.mk (some "demo") none (some [("apiKey", .null)]) none none).requires.getD []
      = []
    ∧ (Automation.mk (some "demo") none (some [("apiKey", .null)]) none none).steps.getD []
      = [] :=
  ⟨rfl, rfl, rfl, rfl⟩

/-- When the config resolves, `run` fails fatally exactly when a requirement has no provider
or a visited step whose condition passes names a capability without a provider; in the
second case the result is the exit at that step, in the state in which the step was visited
(nothing appended for it), and no later step is visited. -/
theorem run_fatal_iff_of_config_ok (E : Engine) (capabilities : CapabilityIndex)
    (opts : Options) (automation : Automation) (config : Context)
    (hcfg : extractConfigDefaults (automation.config.getD []) = .ok config) :
    ((run E capabilities opts automation).fatal = true
      ↔ (∃ req ∈ automation.requires.getD [], capabilities.get req.cap = none)
        ∨ ∃ k τ step, (k, τ) ∈ runVisits E capabilities opts automation
            ∧ (automation.steps.getD [])[k]? = some step
            ∧ conditionPasses E step τ ∧ unprovided capabilities step)
    ∧ ∀ k τ step, (k, τ) ∈ runVisits E capabilities opts automation →
        (automation.steps.getD [])[k]? = some step →
        conditionPasses E step τ → unprovided capabilities step →
        run E capabilities opts automation = .noProvider (orEmpty step.capability) τ
          ∧ ∀ p ∈ runVisits E capabilities opts automation, p.1 ≤ k := by
  have hsecond : ∀ k τ step, (k, τ) ∈ runVisits E capabilities opts automation →
      (automation.steps.getD [])[k]? = some step →
      conditionPasses E step τ → unprovided capabilities step →
      run E capabilities opts automation = .noProvider (orEmpty step.capability) τ
        ∧ ∀ p ∈ runVisits E capabilities opts automation, p.1 ≤ k := by
    intro k τ step hmem hk hp hu
    obtain ⟨pre, hv, hpre, hrun⟩ := run_at_visit E capabilities opts automation k τ hmem
    have hex := (execStep_exit_iff E capabilities opts.dryRun (automation.steps.getD []) k
      step τ τ (orEmpty step.capability)).mpr ⟨hp, hu, rfl, rfl⟩
    rw [loopFrom_some E capabilities opts.dryRun _ hk, hex] at hrun
    rw [visitsFrom_some E capabilities opts.dryRun _ hk, hex] at hv
    refine ⟨hrun, ?_⟩
    intro p hp
    rw [hv] at hp
    rcases List.mem_append.mp hp with hp | hp
    · exact Nat.le_of_lt (hpre p hp)
    · simp only [List.mem_singleton] at hp
      rw [hp]
  refine ⟨?_, hsecond⟩
  constructor
  · intro hfatal
    cases hreq : firstMissing capabilities (automation.requires.getD []) with
    | some cap =>
      left
      by_contra hc
      have := firstMissing_eq_none capabilities (automation.requires.getD [])
        (fun r hr hn => hc ⟨r, hr, hn⟩)
      rw [this] at hreq
      cases hreq
    | none =>
      right
      rw [run_of_ok E capabilities opts automation config hreq hcfg] at hfatal
      rw [runVisits_of_ok E capabilities opts automation config hreq hcfg]
      have hne := loopFrom_ne_outOfFuel E capabilities opts.dryRun (automation.steps.getD [])
        _ 0 (initialState opts automation config) (Nat.le_refl _)
      cases hloop : loopFrom E capabilities opts.dryRun (automation.steps.getD []) 0
          (initialState opts automation config) with
      | finished σ => rw [hloop] at hfatal; cases hfatal
      | exit cap σ =>
        obtain ⟨k, step, hmem, hk, hp, hu, _⟩ :=
          (loopFrom_exit_iff E capabilities opts.dryRun (automation.steps.getD []) _ 0
            (initialState opts automation config) σ cap (Nat.le_refl _)).mp hloop
        exact ⟨k, σ, step, hmem, hk, hp, hu⟩
      | outOfFuel => exact absurd hloop hne
  · rintro (⟨req, hmem, hmiss⟩ | ⟨k, τ, step, hmem, hk, hp, hu⟩)
    · obtain ⟨cap, h1, _⟩ := firstMissing_eq_some capabilities _ req hmem hmiss
      unfold run
      rw [h1]
      rfl
    · rw [(hsecond k τ step hmem hk hp hu).1]
      rfl

/-! ## C9 -/

section DryRun

variable (E : Engine) (capabilities : CapabilityIndex) (steps : List Step)

end DryRun

theorem containsPlaceholder_of_hasPlaceholder (cs : List Char) (h : HasPlaceholder cs) :
    containsPlaceholder cs = true := by
  obtain ⟨pre, path, post, hcs, hne, hb⟩ := h
  subst hcs
  induction pre with
  | nil =>
    show ((matchPlaceholder ('$' :: '{' :: (path ++ '}' :: post))).isSome
      || containsPlaceholder ('{' :: (path ++ '}' :: post))) = true
    rw [matchPlaceholder_closed path post hne hb]
    rfl
  | cons c pre ih =>
    show ((matchPlaceholder (c :: (pre ++ '$' :: '{' :: (path ++ '}' :: post)))).isSome
      || containsPlaceholder (pre ++ '$' :: '{' :: (path ++ '}' :: post))) = true
    rw [ih]
    simp

theorem takeWhile_dropWhile_brace : ∀ (rest : List Char),
    rest.dropWhile (fun c => c != '}') ≠ [] →
    ∃ post, rest = rest.takeWhile (fun c => c != '}') ++ '}' :: post
      ∧ ∀ c ∈ rest.takeWhile (fun c => c != '}'), c ≠ '}' := by
  intro rest
  induction rest with
  | nil => intro h; exact absurd rfl h
  | cons c cs ih =>
    intro h
    by_cases hc : c = '}'
    · subst hc
      refine ⟨cs, by simp [List.takeWhile], ?_⟩
      intro d hd
      simp [List.takeWhile] at hd
    · have hp : (c != '}') = true := by simpa using hc
      have hd : (c :: cs).dropWhile (fun c => c != '}') = cs.dropWhile (fun c => c != '}') := by
        simp [List.dropWhile, hp]
      have ht : (c :: cs).takeWhile (fun c => c != '}')
          = c :: cs.takeWhile (fun c => c != '}') := by
        simp [List.takeWhile, hp]
      rw [hd] at h
      obtain ⟨post, h1, h2⟩ := ih h
      rw [ht]
      refine ⟨post, ?_, ?_⟩
      · rw [List.cons_append, ← h1]
      · intro d hd
        rcases List.mem_cons.mp hd with rfl | hd
        · exact hc
        · exact h2 d hd

/-- A match of the pattern at the head of the characters is a placeholder at their head. -/
theorem matchPlaceholder_some (cs path : List Char) (h : matchPlaceholder cs = some path) :
    ∃ post, cs = '$' :: '{' :: (path ++ '}' :: post) ∧ path ≠ [] ∧ ∀ c ∈ path, c ≠ '}' := by
  unfold matchPlaceholder at h
  split at h
  · rename_i rest
    simp only at h
    split at h
    · rename_i hcond
      cases h
      simp only [Bool.and_eq_true, bne_iff_ne, ne_eq] at hcond
      obtain ⟨post, h1, h2⟩ := takeWhile_dropWhile_brace rest hcond.2
      exact ⟨post, by rw [← h1], hcond.1, h2⟩
    · cases h
  · cases h

theorem replaceAll_no_match (f : List Char → List Char) : ∀ (cs : List Char),
    containsPlaceholder cs = false → replaceAll f 0 cs = cs := by
  intro cs
  induction cs with
  | nil => intro _; rfl
  | cons c cs ih =>
    intro h
    unfold containsPlaceholder at h
    simp only [Bool.or_eq_false_iff] at h
    have hnone : matchPlaceholder (c :: cs) = none := by
      cases hm : matchPlaceholder (c :: cs) with
      | none => rfl
      | some path => rw [hm] at h; simp at h
    show (match matchPlaceholder (c :: cs) with
      | some path => f path ++ replaceAll f (path.length + 2) cs
      | none => c :: replaceAll f 0 cs) = c :: cs
    rw [hnone]
    simp only
    rw [ih h.2]

theorem hasPlaceholder_of_containsPlaceholder : ∀ (cs : List Char),
    containsPlaceholder cs = true → HasPlaceholder cs := by
  intro cs
  induction cs with
  | nil => intro h; cases h
  | cons c cs ih =>
    intro h
    unfold containsPlaceholder at h
    cases hm : matchPlaceholder (c :: cs) with
    | some path =>
      obtain ⟨post, h1, h2, h3⟩ := matchPlaceholder_some _ _ hm
      exact ⟨[], path, post, h1, h2, h3⟩
    | none =>
      rw [hm] at h
      simp only [Option.isSome_none, Bool.false_or] at h
      obtain ⟨pre, path, post, h1, h2, h3⟩ := ih h
      exact ⟨c :: pre, path, post, by rw [h1]; rfl, h2, h3⟩

/-- C10: on a string without any placeholder occurrence (a dollar sign and an opening brace,
one or more characters other than a closing brace, a closing brace), `interpolate` returns
the string itself, whatever the context; so it is idempotent there and its result does not
depend on the context. -/
theorem interpolate_no_placeholder (E : Engine) (s : String)
    (h : ¬ HasPlaceholder s.data) :
    (∀ context : Context, interpolate E context (.str s) = .str s)
      ∧ (∀ context : Context,
          interpolate E context (interpolate E context (.str s))
            = interpolate E context (.str s))
      ∧ ∀ context other : Context,
          interpolate E context (.str s) = interpolate E other (.str s) := by
  have hno : containsPlaceholder s.data = false := by
    cases hc : containsPlaceholder s.data with
    | false => rfl
    | true => exact absurd (hasPlaceholder_of_containsPlaceholder _ hc) h
  have hid : ∀ context : Context, interpolate E context (.str s) = .str s := by
    intro context
    show Value.str (interpolateString E context s) = .str s
    unfold interpolateString
    rw [replaceAll_no_match _ _ hno]
  refine ⟨hid, ?_, ?_⟩
  · intro context
    rw [hid context, hid context]
  · intro context other
    rw [hid context, hid other]

/-- C10, witness: a string with the empty placeholder and an unclosed one is returned as it
is, by an engine that would fail on any expression. -/
theorem interpolate_no_placeholder_witness :
    (∀ context : Context,
        interpolate sampleEngine context (.str "a $\x7b\x7d b $\x7bunclosed")
          = .str "a $\x7b\x7d b $\x7bunclosed")
      ∧ (∀ context : Context,
          interpolate sampleEngine context
              (interpolate sampleEngine context (.str "a $\x7b\x7d b $\x7bunclosed"))
            = interpolate sampleEngine context (.str "a $\x7b\x7d b $\x7bunclosed"))
      ∧ ∀ context other : Context,
          interpolate sampleEngine context (.str "a $\x7b\x7d b $\x7bunclosed")
            = interpolate sampleEngine other (.str "a $\x7b\x7d b $\x7bunclosed") :=
  interpolate_no_placeholder sampleEngine "a $\x7b\x7d b $\x7bunclosed"
    (fun h => by
      have hc := containsPlaceholder_of_hasPlaceholder _ h
      have hf : containsPlaceholder ("a $\x7b\x7d b $\x7bunclosed").data = false := by decide
      rw [hf] at hc
      cases hc)

/-! ## C11 -/

/-- The two parsers and the scan on the sample directories. -/
theorem scanCapabilities_sample :
    parseProvides sampleManifest = ["mail", "calendar"]
      ∧ parseFrontmatterProvides sampleDescriptor = ["calendar", "search"]
      ∧ scanCapabilities sampleSkillsDirs
        = [("mail", ⟨"mailer", "/work/skills"⟩), ("calendar", ⟨"mailer", "/work/skills"⟩),
            ("search", ⟨"planner", "/work/skills"⟩)] := by
  refine ⟨by decide, by decide, rfl⟩

section Scan

/-- An item is not empty: what is left after it is shorter. -/
theorem matchItem_rest_lt (cs item rest : List Char) (h : matchItem cs = some (item, rest)) :
    rest.length < cs.length := by
  have h1 : (cs.dropWhile isJsSpace).length ≤ cs.length :=
    (List.dropWhile_sublist isJsSpace).length_le
  unfold matchItem at h
  split at h
  · rename_i r hd
    have h2 : (r.dropWhile fun d => d != Char.ofNat 10).length ≤ r.length :=
      (List.dropWhile_sublist _).length_le
    rw [hd] at h1
    simp only [List.length_cons] at h1
    split at h
    · split at h
      · rename_i nl rest1 hd1
        cases h
        rw [hd1] at h2
        simp only [List.length_cons] at h2
        omega
      · cases h
        simp only [List.length_nil]
        omega
    · cases h
  · cases h

/-- The budget of `matchItems` is enough from the length of the characters on. -/
theorem matchItems_fuel : ∀ (n m : Nat) (cs : List Char), cs.length ≤ n → cs.length ≤ m →
    matchItems n cs = matchItems m cs := by
  intro n
  induction n with
  | zero =>
    intro m cs hn _
    have hnil : cs = [] := List.length_eq_zero.mp (Nat.le_zero.mp hn)
    subst hnil
    cases m with
    | zero => rfl
    | succ m => rfl
  | succ n ih =>
    intro m cs hn hm
    cases m with
    | zero =>
      have hnil : cs = [] := List.length_eq_zero.mp (Nat.le_zero.mp hm)
      subst hnil
      rfl
    | succ m =>
      show (match matchItem cs with
        | some (item, rest) => item ++ matchItems n rest
        | none => []) = (match matchItem cs with
        | some (item, rest) => item ++ matchItems m rest
        | none => [])
      cases hitem : matchItem cs with
      | none => rfl
      | some p =>
        obtain ⟨item, rest⟩ := p
        have hlt := matchItem_rest_lt cs item rest hitem
        simp only
        rw [ih m rest (by omega) (by omega)]

end Scan

/-! ## C14 -/

/-- Whatever the policy, the branch taken when a condition is not met appends one skipped
record named after the step and leaves the context as it is; it never exits the process. -/
theorem conditionNotMet_shape (steps : List Step) (i : Nat) (step : Step) (σ : RunState) :
    (∃ reason, (conditionNotMet steps i step σ).state
        = σ.push (.skipped (stepName step i) reason))
      ∧ ∀ cap σ1, conditionNotMet steps i step σ ≠ .exit cap σ1 := by
  refine ⟨?_, fun cap σ1 => conditionNotMet_ne_exit steps i step σ σ1 cap⟩
  unfold conditionNotMet
  split
  · exact ⟨_, rfl⟩
  · split
    · split
      · split
        · exact ⟨_, rfl⟩
        · exact ⟨_, rfl⟩
      · exact ⟨_, rfl⟩
    · exact ⟨_, rfl⟩

/-- C15, counterexample: step 2 has no name, so its records carry the label `step-3`; step 0
has a false condition and `onFalse: "skip-to:step-3"`, and no step is named `step-3`.  The
search for the target finds nothing: step 0 is skipped with the reason `condition not met`,
step 1 is visited and recorded, and no record has the reason `skip-to step-3`. -/
theorem run_skip_to_positional_label_is_default_skip :
    (unnamedNotifyStep "x").name = none
      ∧ stepName (unnamedNotifyStep "x") 2 = "step-3"
      ∧ findIndex "step-3"
          [guardStep "a" "false" "skip-to:step-3", notifyStep "b" "hi", unnamedNotifyStep "x"]
        = none
      ∧ (runVisits sampleEngine [] liveOptions
          (automationOf [guardStep "a" "false" "skip-to:step-3", notifyStep "b" "hi",
            unnamedNotifyStep "x"])).map Prod.fst = [0, 1, 2]
      ∧ (run sampleEngine [] liveOptions
          (automationOf [guardStep "a" "false" "skip-to:step-3", notifyStep "b" "hi",
            unnamedNotifyStep "x"])).records
        = some [.skipped "a" "condition not met", .notify "b" "hi", .notify "step-3" "x"] :=
  ⟨rfl, rfl, rfl, rfl, rfl⟩

/-- C15, amended: a step without an explicit name is recorded under its positional label
`step-<j+1>`, but the label does not identify it as a branch target: the target of a
`skip-to` is searched among the explicit names only, so the step found always carries the
name searched.  When a visited step `i` has a false condition and `onFalse: "skip-to:<t>"`,
and no step after `i` carries the explicit name `t` (as when `t` is only the label of an
unnamed step), the run appends for step `i` a skipped record with the reason
`condition not met` and goes on at `i + 1`. -/
theorem run_skip_to_label_falls_back (E : Engine) (capabilities : CapabilityIndex)
    (opts : Options) (automation : Automation) (i : Nat) (τ : RunState) (step : Step)
    (t : String)
    (hvis : (i, τ) ∈ runVisits E capabilities opts automation)
    (hstep : (automation.steps.getD [])[i]? = some step)
    (hcond : truthyStr step.condition = true)
    (hfalse : evaluateCondition E (orEmpty step.condition) τ.context = false)
    (honFalse : step.onFalse = some ("skip-to:" ++ t))
    (hno : ∀ (k : Nat) (s : Step), i < k → (automation.steps.getD [])[k]? = some s →
      s.name ≠ some t) :
    (∀ (j : Nat) (s : Step), s.name = none → stepName s j = "step-" ++ toString (j + 1))
      ∧ (∀ (name : String) (j : Nat) (s : Step),
          findIndex name (automation.steps.getD []) = some j →
          (automation.steps.getD [])[j]? = some s → s.name = some name)
      ∧ execStep E capabilities opts.dryRun (automation.steps.getD []) i step τ
          = .next (i + 1) (τ.push (.skipped (stepName step i) "condition not met"))
      ∧ ∃ pre, runVisits E capabilities opts automation
          = pre ++ (i, τ) :: visitsFrom E capabilities opts.dryRun (automation.steps.getD [])
              (i + 1) (τ.push (.skipped (stepName step i) "condition not met"))
        ∧ (∀ next, (automation.steps.getD [])[i + 1]? = some next →
            ∃ rest, visitsFrom E capabilities opts.dryRun (automation.steps.getD [])
                (i + 1) (τ.push (.skipped (stepName step i) "condition not met"))
              = (i + 1, τ.push (.skipped (stepName step i) "condition not met")) :: rest)
        ∧ run E capabilities opts automation
          = finish opts (loopFrom E capabilities opts.dryRun (automation.steps.getD [])
              (i + 1) (τ.push (.skipped (stepName step i) "condition not met"))) := by
  have htarget : skipTarget step.onFalse = some t := by
    rw [honFalse]
    exact skipTarget_skipTo t
  have hne : step.onFalse ≠ some "exit" := by
    intro hc
    rw [hc, skipTarget_exit] at htarget
    cases htarget
  have hfound : ∀ (name : String) (j : Nat) (s : Step),
      findIndex name (automation.steps.getD []) = some j →
      (automation.steps.getD [])[j]? = some s → s.name = some name := by
    intro name j s hj hs
    obtain ⟨⟨s1, h1, h2⟩, _⟩ := findIndex_spec name _ j hj
    rw [hs] at h1
    cases h1
    exact h2
  have hex : execStep E capabilities opts.dryRun (automation.steps.getD []) i step τ
      = .next (i + 1) (τ.push (.skipped (stepName step i) "condition not met")) := by
    rw [execStep_conditionNotMet E capabilities opts.dryRun _ i step τ hcond hfalse]
    apply conditionNotMet_default _ i step τ hne
    intro t1 j ht1 hj
    rw [htarget] at ht1
    have ht : t = t1 := Option.some.inj ht1
    by_contra hgt
    obtain ⟨⟨s1, h1, h2⟩, _⟩ := findIndex_spec t1 _ j hj
    rw [← ht] at h2
    exact hno j s1 (by omega) h1 h2
  obtain ⟨pre, hv, _, hrun⟩ := run_at_visit E capabilities opts automation i τ hvis
  rw [visitsFrom_some E capabilities opts.dryRun _ hstep, hex] at hv
  rw [loopFrom_some E capabilities opts.dryRun _ hstep, hex] at hrun
  refine ⟨?_, hfound, hex, pre, hv, ?_, hrun⟩
  · intro j s hs
    unfold stepName
    rw [hs]
    rfl
  · intro next hnext
    rw [visitsFrom_some E capabilities opts.dryRun _ hnext]
    exact ⟨_, rfl⟩

/-- C15, witness: the target `step-3` is the label of the unnamed third step only. -/
theorem run_skip_to_label_falls_back_witness :
    execStep sampleEngine [] liveOptions.dryRun
        ((automationOf [guardStep "a" "false" "skip-to:step-3", notifyStep "b" "hi",
          unnamedNotifyStep "x"]).steps.getD []) 0 (guardStep "a" "false" "skip-to:step-3")
        (initialState liveOptions (automationOf []) [])
      = .next (0 + 1)
          ((initialState liveOptions (automationOf []) []).push
            (.skipped (stepName (guardStep "a" "false" "skip-to:step-3") 0)
              "condition not met")) :=
  (run_skip_to_label_falls_back sampleEngine [] liveOptions
    (automationOf [guardStep "a" "false" "skip-to:step-3", notifyStep "b" "hi",
      unnamedNotifyStep "x"]) 0 (initialState liveOptions (automationOf []) [])
    (guardStep "a" "false" "skip-to:step-3") "step-3"
    (List.mem_cons_self _ _) rfl rfl rfl rfl
    (by
      intro k s hk hs
      match k, hk, hs with
      | 1, _, hs =>
        simp only [automationOf, Option.getD_some] at hs
        cases hs
        decide
      | 2, _, hs =>
        simp only [automationOf, Option.getD_some] at hs
        cases hs
        decide
      | k + 3, _, hs =>
        simp [automationOf] at hs)).2.2.1

/-! ## C16 -/

theorem Context.set_of_absent (context : Context) (key : String) (v : Value)
    (h : ∀ e ∈ context, e.1 ≠ key) : Context.set context key v = context ++ [(key, v)] := by
  induction context with
  | nil => rfl
  | cons e rest ih =>
    obtain ⟨k, w⟩ := e
    have hk : k ≠ key := h (k, w) (List.mem_cons_self _ _)
    show (if k = key then (k, v) :: rest else (k, w) :: Context.set rest key v) = _
    simp only [hk, if_false]
    rw [ih (fun e he => h e (List.mem_cons_of_mem _ he))]
    rfl

theorem extractConfigDefaultsFrom_of_no_null : ∀ (config : List (String × Value))
    (defaults : Context),
    (∀ e ∈ config, e.2 ≠ .null) → (config.map Prod.fst).Nodup →
    (∀ e ∈ defaults, ∀ c ∈ config, e.1 ≠ c.1) →
    extractConfigDefaultsFrom defaults config
      = .ok (defaults ++ config.map fun e => (e.1, resolveEntry e.2)) := by
  intro config
  induction config with
  | nil => intro defaults _ _ _; simp [extractConfigDefaultsFrom]
  | cons c rest ih =>
    intro defaults hnull hnodup hfresh
    obtain ⟨key, value⟩ := c
    have hrestnull : ∀ e ∈ rest, e.2 ≠ .null := fun e he => hnull e (List.mem_cons_of_mem _ he)
    have hnd := List.nodup_cons.mp hnodup
    have habsent : ∀ e ∈ defaults, e.1 ≠ key :=
      fun e he => hfresh e he (key, value) (List.mem_cons_self _ _)
    have hstep : ∀ w : Value,
        extractConfigDefaultsFrom (defaults.set key w) rest
          = .ok (defaults ++ (key, w) :: rest.map fun e => (e.1, resolveEntry e.2)) := by
      intro w
      rw [Context.set_of_absent defaults key w habsent, ih _ hrestnull hnd.2 ?_]
      · simp
      · intro e he c hc
        rcases List.mem_append.mp he with he | he
        · exact hfresh e he c (List.mem_cons_of_mem _ hc)
        · simp only [List.mem_singleton] at he
          rw [he]
          intro heq
          exact hnd.1 (List.mem_map.mpr ⟨c, hc, heq.symm⟩)
    have hvalue : value ≠ .null := hnull (key, value) (List.mem_cons_self _ _)
    cases value with
    | null => exact absurd rfl hvalue
    | obj fields =>
      show (match Context.get fields "default" with
        | some d => extractConfigDefaultsFrom (defaults.set key d) rest
        | none => extractConfigDefaultsFrom (defaults.set key (.obj fields)) rest) = _
      cases hd : Context.get fields "default" with
      | some d =>
        simp only
        rw [hstep d]
        simp [resolveEntry, hd]
      | none =>
        simp only
        rw [hstep (.obj fields)]
        simp [resolveEntry, hd]
    | undefined => exact hstep _
    | bool b => exact hstep _
    | num n => exact hstep _
    | str s => exact hstep _
    | arr items => exact hstep _

/-- When no entry of the config is `null` (and the names are distinct, as in a decoded
mapping), the config resolves to the mapping with the same names in which each entry is
resolved, and this mapping is bound to `config` in the context of the first step. -/
theorem extractConfigDefaults_of_no_null (config : List (String × Value))
    (hnull : ∀ e ∈ config, e.2 ≠ .null) (hnodup : (config.map Prod.fst).Nodup) :
    extractConfigDefaults config = .ok (config.map fun e => (e.1, resolveEntry e.2))
      ∧ ∀ (opts : Options) (automation : Automation),
          (initialState opts automation
            (config.map fun e => (e.1, resolveEntry e.2))).context
            = [("config", .obj (config.map fun e => (e.1, resolveEntry e.2)))] := by
  refine ⟨?_, fun _ _ => rfl⟩
  unfold extractConfigDefaults
  rw [extractConfigDefaultsFrom_of_no_null config [] hnull hnodup
    (fun e he => by cases he)]
  rfl

/-- C16, the code at the failing input: on a config mapping with an entry that is `null`,
config resolution does not succeed: `extractConfigDefaults` raises a `TypeError`, so `run`
ends before the step loop and no step sees a context. -/
theorem extractConfigDefaults_null_entry_fails :
    extractConfigDefaults [("limit", .obj [("default", .num 5)]), ("apiKey", .null)]
      = .error "Cannot use 'in' operator to search for 'default' in null"
    ∧ run sampleEngine [] dryOptions
        ⟨some "demo", none, some [("limit", .obj [("default", .num 5)]), ("apiKey", .null)],
          none, some [notifyStep "a" "hi"]⟩
      = .threw "Cannot use 'in' operator to search for 'default' in null"
    ∧ runVisits sampleEngine [] dryOptions
        ⟨some "demo", none, some [("limit", .obj [("default", .num 5)]), ("apiKey", .null)],
          none, some [notifyStep "a" "hi"]⟩
      = [] :=
  ⟨rfl, rfl, rfl⟩

/-! ## C17 -/

section Order

variable (E : Engine) (capabilities : CapabilityIndex) (dryRun : Bool) (steps : List Step)

theorem capabilityBody_appends (i : Nat) (step : Step) (σ σ1 : RunState)
    (h : capabilityBody E capabilities dryRun i step σ = .ok σ1) :
    ∃ recs, σ1.runLog.steps = σ.runLog.steps ++ recs := by
  unfold capabilityBody at h
  split at h
  · split at h
    · cases h
    · split at h
      · cases h
        exact ⟨[_], rfl⟩
      · split at h
        · cases h
          exact ⟨[_], rfl⟩
        · cases h
          exact ⟨[_], rfl⟩
  · cases h
    exact ⟨[], by simp⟩

theorem actionBody_appends (i : Nat) (step : Step) (σ : RunState) :
    ∃ recs, (actionBody E i step σ).runLog.steps = σ.runLog.steps ++ recs := by
  unfold actionBody
  split
  · exact ⟨[_], rfl⟩
  · split
    · split
      · exact ⟨[_], rfl⟩
      · exact ⟨[_], rfl⟩
    · split
      · split
        · split
          · exact ⟨[_], rfl⟩
          · exact ⟨[_], rfl⟩
        · exact ⟨[_], rfl⟩
      · exact ⟨[], by simp⟩

/-- An iteration only appends to the log. -/
theorem execStep_appends (i : Nat) (step : Step) (σ : RunState) :
    ∃ recs, (execStep E capabilities dryRun steps i step σ).state.runLog.steps
      = σ.runLog.steps ++ recs := by
  unfold execStep
  split
  · obtain ⟨⟨reason, h⟩, _⟩ := conditionNotMet_shape steps i step σ
    rw [h]
    exact ⟨[_], rfl⟩
  · split
    · exact ⟨[], by simp [StepOutcome.state]⟩
    · rename_i σ1 hcb
      obtain ⟨recs1, h1⟩ := capabilityBody_appends E capabilities dryRun i step σ σ1 hcb
      obtain ⟨recs2, h2⟩ := actionBody_appends E i step σ1
      refine ⟨recs1 ++ recs2, ?_⟩
      show (actionBody E i step σ1).runLog.steps = _
      rw [h2, h1, List.append_assoc]

theorem appended_eq (σ σ1 : RunState) (recs : List StepRecord)
    (h : σ1.runLog.steps = σ.runLog.steps ++ recs) : appended σ σ1 = recs := by
  unfold appended
  rw [h]
  simp

theorem attributed_none {i : Nat} (h : steps[i]? = none) (fuel : Nat) (σ : RunState) :
    attributed E capabilities dryRun steps fuel i σ = [] := by
  unfold attributed
  simp [h]

theorem attributed_some {i : Nat} {step : Step} (h : steps[i]? = some step) (fuel : Nat)
    (σ : RunState) :
    attributed E capabilities dryRun steps (fuel + 1) i σ
      = (appended σ (execStep E capabilities dryRun steps i step σ).state).map
            (fun r => (i, r))
          ++ match execStep E capabilities dryRun steps i step σ with
            | .next j σ1 => attributed E capabilities dryRun steps fuel j σ1
            | .stop _ => []
            | .exit _ _ => [] := by
  rw [attributed]
  simp [h]

theorem attributed_zero (i : Nat) (σ : RunState) :
    attributed E capabilities dryRun steps 0 i σ = [] := by
  unfold attributed
  cases steps[i]? <;> rfl

theorem visits_zero (i : Nat) (σ : RunState) :
    visits E capabilities dryRun steps 0 i σ = [] := by
  unfold visits
  cases steps[i]? <;> rfl

/-- The log in which the loop ends is the log it started with followed by the records
appended by the iterations, in the order of the iterations. -/
theorem runLoop_log : ∀ (fuel i : Nat) (σ : RunState),
    (∀ σ1, runLoop E capabilities dryRun steps fuel i σ = .finished σ1 →
        σ1.runLog.steps
          = σ.runLog.steps ++ (attributed E capabilities dryRun steps fuel i σ).map Prod.snd)
    ∧ (∀ cap σ1, runLoop E capabilities dryRun steps fuel i σ = .exit cap σ1 →
        σ1.runLog.steps
          = σ.runLog.steps ++ (attributed E capabilities dryRun steps fuel i σ).map Prod.snd) := by
  intro fuel
  induction fuel with
  | zero =>
    intro i σ
    cases hget : steps[i]? with
    | none =>
      rw [runLoop_none E capabilities dryRun steps hget, attributed_zero]
      constructor
      · intro σ1 h; cases h; simp
      · intro cap σ1 h; cases h
    | some step =>
      have : runLoop E capabilities dryRun steps 0 i σ = .outOfFuel := by
        unfold runLoop
        simp [hget]
      rw [this]
      constructor
      · intro σ1 h; cases h
      · intro cap σ1 h; cases h
  | succ n ih =>
    intro i σ
    cases hget : steps[i]? with
    | none =>
      rw [runLoop_none E capabilities dryRun steps hget,
        attributed_none E capabilities dryRun steps hget]
      constructor
      · intro σ1 h; cases h; simp
      · intro cap σ1 h; cases h
    | some step =>
      rw [runLoop_some E capabilities dryRun steps hget,
        attributed_some E capabilities dryRun steps hget]
      obtain ⟨recs, hrecs⟩ := execStep_appends E capabilities dryRun steps i step σ
      rw [appended_eq σ _ recs hrecs]
      cases hex : execStep E capabilities dryRun steps i step σ with
      | next j σ2 =>
        rw [hex] at hrecs
        simp only
        obtain ⟨h1, h2⟩ := ih j σ2
        have hσ2 : σ2.runLog.steps = σ.runLog.steps ++ recs := hrecs
        constructor
        · intro σ1 h
          rw [h1 σ1 h, hσ2]
          simp
        · intro cap σ1 h
          rw [h2 cap σ1 h, hσ2]
          simp
      | stop σ2 =>
        rw [hex] at hrecs
        have hσ2 : σ2.runLog.steps = σ.runLog.steps ++ recs := hrecs
        constructor
        · intro σ1 h
          cases h
          rw [hσ2]
          simp
        · intro cap σ1 h; cases h
      | exit cap2 σ2 =>
        rw [hex] at hrecs
        have hσ2 : σ2.runLog.steps = σ.runLog.steps ++ recs := hrecs
        constructor
        · intro σ1 h; cases h
        · intro cap σ1 h
          cases h
          rw [hσ2]
          simp

/-- The records appended from index `i` on come from steps with indices from `i` up, in
non-decreasing order of these indices. -/
theorem attributed_sorted : ∀ (fuel i : Nat) (σ : RunState),
    (∀ p ∈ attributed E capabilities dryRun steps fuel i σ, i ≤ p.1 ∧ p.1 < steps.length)
    ∧ ((attributed E capabilities dryRun steps fuel i σ).map Prod.fst).Pairwise (· ≤ ·) := by
  intro fuel
  induction fuel with
  | zero =>
    intro i σ
    rw [attributed_zero]
    exact ⟨fun p hp => absurd hp (List.not_mem_nil p), List.Pairwise.nil⟩
  | succ n ih =>
    intro i σ
    cases hget : steps[i]? with
    | none =>
      rw [attributed_none E capabilities dryRun steps hget]
      exact ⟨fun p hp => absurd hp (List.not_mem_nil p), List.Pairwise.nil⟩
    | some step =>
      have hi := getElem?_some_lt steps hget
      rw [attributed_some E capabilities dryRun steps hget]
      have hhead : ∀ p ∈ (appended σ (execStep E capabilities dryRun steps i step σ).state).map
          (fun r => (i, r)), p.1 = i := by
        intro p hp
        obtain ⟨r, _, hr⟩ := List.mem_map.mp hp
        rw [← hr]
      have htail : ∀ p ∈ (match execStep E capabilities dryRun steps i step σ with
          | .next j σ1 => attributed E capabilities dryRun steps n j σ1
          | .stop _ => []
          | .exit _ _ => []), i < p.1 ∧ p.1 < steps.length := by
        intro p hp
        cases hex : execStep E capabilities dryRun steps i step σ with
        | next j σ1 =>
          rw [hex] at hp
          have hlt := execStep_next_lt E capabilities dryRun steps hex
          have := (ih j σ1).1 p hp
          omega
        | stop σ1 => rw [hex] at hp; cases hp
        | exit cap σ1 => rw [hex] at hp; cases hp
      have htailsorted : ((match execStep E capabilities dryRun steps i step σ with
          | .next j σ1 => attributed E capabilities dryRun steps n j σ1
          | .stop _ => []
          | .exit _ _ => []).map Prod.fst).Pairwise (· ≤ ·) := by
        cases hex : execStep E capabilities dryRun steps i step σ with
        | next j σ1 => exact (ih j σ1).2
        | stop σ1 => exact List.Pairwise.nil
        | exit cap σ1 => exact List.Pairwise.nil
      constructor
      · intro p hp
        rcases List.mem_append.mp hp with hp | hp
        · rw [hhead p hp]
          exact ⟨Nat.le_refl _, hi⟩
        · have := htail p hp
          omega
      · rw [List.map_append, List.pairwise_append]
        refine ⟨?_, htailsorted, ?_⟩
        · rw [List.pairwise_map]
          apply List.Pairwise.imp_of_mem _ (List.pairwise_of_forall (R := fun _ _ => True)
            (fun _ _ => trivial))
          intro a b ha hb _
          rw [hhead a ha, hhead b hb]
        · intro a ha b hb
          obtain ⟨p, hp, hpa⟩ := List.mem_map.mp ha
          obtain ⟨q, hq, hqb⟩ := List.mem_map.mp hb
          rw [← hpa, ← hqb, hhead p hp]
          exact Nat.le_of_lt (htail q hq).1

/-- The steps visited from index `i` on have strictly increasing indices, from `i` up, and
there are at most as many as there are steps from `i` on. -/
theorem visits_sorted : ∀ (fuel i : Nat) (σ : RunState),
    (∀ p ∈ visits E capabilities dryRun steps fuel i σ, i ≤ p.1 ∧ p.1 < steps.length)
    ∧ ((visits E capabilities dryRun steps fuel i σ).map Prod.fst).Pairwise (· < ·)
    ∧ (visits E capabilities dryRun steps fuel i σ).length ≤ steps.length - i := by
  intro fuel
  induction fuel with
  | zero =>
    intro i σ
    rw [visits_zero]
    exact ⟨fun p hp => absurd hp (List.not_mem_nil p), List.Pairwise.nil, Nat.zero_le _⟩
  | succ n ih =>
    intro i σ
    cases hget : steps[i]? with
    | none =>
      rw [visits_none E capabilities dryRun steps hget]
      exact ⟨fun p hp => absurd hp (List.not_mem_nil p), List.Pairwise.nil, Nat.zero_le _⟩
    | some step =>
      have hi := getElem?_some_lt steps hget
      rw [visits_some E capabilities dryRun steps hget]
      cases hex : execStep E capabilities dryRun steps i step σ with
      | next j σ1 =>
        have hlt := execStep_next_lt E capabilities dryRun steps hex
        obtain ⟨h1, h2, h3⟩ := ih j σ1
        simp only
        refine ⟨?_, ?_, ?_⟩
        · intro p hp
          rcases List.mem_cons.mp hp with rfl | hp
          · exact ⟨Nat.le_refl _, hi⟩
          · have := h1 p hp
            omega
        · rw [List.map_cons, List.pairwise_cons]
          refine ⟨?_, h2⟩
          intro b hb
          obtain ⟨q, hq, hqb⟩ := List.mem_map.mp hb
          rw [← hqb]
          have := (h1 q hq).1
          show i < q.1
          omega
        · simp only [List.length_cons]
          omega
      | stop σ1 =>
        simp only
        refine ⟨?_, by simp, by simp; omega⟩
        intro p hp
        simp only [List.mem_singleton] at hp
        rw [hp]
        exact ⟨Nat.le_refl _, hi⟩
      | exit cap σ1 =>
        simp only
        refine ⟨?_, by simp, by simp; omega⟩
        intro p hp
        simp only [List.mem_singleton] at hp
        rw [hp]
        exact ⟨Nat.le_refl _, hi⟩

end Order

/-- C17: in every run the index only moves forward (an iteration that goes on does so at a
strictly later index, a `skip-to` included), so the indices of the steps visited are strictly
increasing: no step is visited twice, there are at most as many iterations as steps, and the
loop ends within its budget of `n` iterations.  The records of the trace are the records
appended by the iterations, in non-decreasing order of the index of the step whose iteration
appended them. -/
theorem run_visits_strictly_increasing (E : Engine) (capabilities : CapabilityIndex)
    (opts : Options) (automation : Automation) :
    (∀ (i j : Nat) (step : Step) (σ σ1 : RunState),
        execStep E capabilities opts.dryRun (automation.steps.getD []) i step σ = .next j σ1 →
        i < j)
    ∧ ((runVisits E capabilities opts automation).map Prod.fst).Pairwise (· < ·)
    ∧ ((runVisits E capabilities opts automation).map Prod.fst).Nodup
    ∧ (runVisits E capabilities opts automation).length ≤ (automation.steps.getD []).length
    ∧ (∀ p ∈ runVisits E capabilities opts automation, p.1 < (automation.steps.getD []).length)
    ∧ run E capabilities opts automation ≠ .outOfFuel
    ∧ ((runAttributed E capabilities opts automation).map Prod.fst).Pairwise (· ≤ ·)
    ∧ (∀ log context saved,
        run E capabilities opts automation = .completed log context saved →
        log.steps = (runAttributed E capabilities opts automation).map Prod.snd)
    ∧ (∀ cap σ,
        run E capabilities opts automation = .noProvider cap σ →
        σ.runLog.steps = (runAttributed E capabilities opts automation).map Prod.snd) := by
  have hsorted : ((runVisits E capabilities opts automation).map Prod.fst).Pairwise (· < ·)
      ∧ (runVisits E capabilities opts automation).length ≤ (automation.steps.getD []).length
      ∧ ∀ p ∈ runVisits E capabilities opts automation,
          p.1 < (automation.steps.getD []).length := by
    unfold runVisits
    cases firstMissing capabilities (automation.requires.getD []) with
    | some cap => exact ⟨List.Pairwise.nil, Nat.zero_le _, fun p hp => absurd hp (List.not_mem_nil p)⟩
    | none =>
      cases extractConfigDefaults (automation.config.getD []) with
      | error e =>
        exact ⟨List.Pairwise.nil, Nat.zero_le _, fun p hp => absurd hp (List.not_mem_nil p)⟩
      | ok config =>
        obtain ⟨h1, h2, h3⟩ := visits_sorted E capabilities opts.dryRun
          (automation.steps.getD []) (automation.steps.getD []).length 0
          (initialState opts automation config)
        exact ⟨h2, h3, fun p hp => (h1 p hp).2⟩
  have hattr : ((runAttributed E capabilities opts automation).map Prod.fst).Pairwise (· ≤ ·) := by
    unfold runAttributed
    cases firstMissing capabilities (automation.requires.getD []) with
    | some cap => exact List.Pairwise.nil
    | none =>
      cases extractConfigDefaults (automation.config.getD []) with
      | error e => exact List.Pairwise.nil
      | ok config =>
        exact (attributed_sorted E capabilities opts.dryRun (automation.steps.getD [])
          (automation.steps.getD []).length 0 (initialState opts automation config)).2
  refine ⟨?_, hsorted.1, ?_, hsorted.2.1, hsorted.2.2, run_returns E capabilities opts automation,
    hattr, ?_, ?_⟩
  · intro i j step σ σ1 h
    exact execStep_next_lt E capabilities opts.dryRun _ h
  · exact hsorted.1.imp (fun h => Nat.ne_of_lt h)
  · intro log context saved hrun
    unfold run at hrun
    unfold runAttributed
    cases hreq : firstMissing capabilities (automation.requires.getD []) with
    | some cap => rw [hreq] at hrun; cases hrun
    | none =>
      cases hcfg : extractConfigDefaults (automation.config.getD []) with
      | error e => rw [hreq, hcfg] at hrun; cases hrun
      | ok config =>
        rw [hreq, hcfg] at hrun
        simp only at hrun ⊢
        cases hloop : runLoop E capabilities opts.dryRun (automation.steps.getD [])
            (automation.steps.getD []).length 0 (initialState opts automation config) with
        | finished σ =>
          rw [hloop] at hrun
          cases hrun
          have := (runLoop_log E capabilities opts.dryRun (automation.steps.getD [])
            (automation.steps.getD []).length 0 (initialState opts automation config)).1 σ hloop
          simpa [initialState] using this
        | exit cap σ => rw [hloop] at hrun; cases hrun
        | outOfFuel => rw [hloop] at hrun; cases hrun
  · intro cap σ hrun
    unfold run at hrun
    unfold runAttributed
    cases hreq : firstMissing capabilities (automation.requires.getD []) with
    | some cap => rw [hreq] at hrun; cases hrun
    | none =>
      cases hcfg : extractConfigDefaults (automation.config.getD []) with
      | error e => rw [hreq, hcfg] at hrun; cases hrun
      | ok config =>
        rw [hreq, hcfg] at hrun
        simp only at hrun ⊢
        cases hloop : runLoop E capabilities opts.dryRun (automation.steps.getD [])
            (automation.steps.getD []).length 0 (initialState opts automation config) with
        | finished σ1 => rw [hloop] at hrun; cases hrun
        | exit cap1 σ1 =>
          rw [hloop] at hrun
          cases hrun
          have := (runLoop_log E capabilities opts.dryRun (automation.steps.getD [])
            (automation.steps.getD []).length 0 (initialState opts automation config)).2
            cap σ hloop
          simpa [initialState] using this
        | outOfFuel => rw [hloop] at hrun; cases hrun

/-- C17, witness: a run of three steps in which the first jumps to the third: the steps
visited are 0 and 2, and the two records come from steps 0 and 2 in this order. -/
theorem run_visits_strictly_increasing_witness :
    (runVisits sampleEngine [] liveOptions
        (automationOf [guardStep "a" "false" "skip-to:c", notifyStep "b" "hi",
          notifyStep "c" "x"])).map Prod.fst = [0, 2]
    ∧ runAttributed sampleEngine [] liveOptions
        (automationOf [guardStep "a" "false" "skip-to:c", notifyStep "b" "hi",
          notifyStep "c" "x"])
      = [(0, .skipped "a" "skip-to c"), (2, .notify "c" "x")]
    ∧ ((runVisits sampleEngine [] liveOptions
        (automationOf [guardStep "a" "false" "skip-to:c", notifyStep "b" "hi",
          notifyStep "c" "x"])).map Prod.fst).Pairwise (· < ·)
    ∧ ((runAttributed sampleEngine [] liveOptions
        (automationOf [guardStep "a" "false" "skip-to:c", notifyStep "b" "hi",
          notifyStep "c" "x"])).map Prod.fst).Pairwise (· ≤ ·) :=
  ⟨rfl, rfl,
    (run_visits_strictly_increasing sampleEngine [] liveOptions
      (automationOf [guardStep "a" "false" "skip-to:c", notifyStep "b" "hi",
        notifyStep "c" "x"])).2.1,
    (run_visits_strictly_increasing sampleEngine [] liveOptions
      (automationOf [guardStep "a" "false" "skip-to:c", notifyStep "b" "hi",
        notifyStep "c" "x"])).2.2.2.2.2.2.1⟩

end ClawFlows
